import Mathlib

/-!
Verification of the strict-types type-system compilation and identity engine
against its natural-language specification.

The development shallowly embeds the Rust sources:
  - `src/typesys/id.rs`      (identity engine: `TypeSystem::id`, `SemCommit`,
    `FromStr`/`Display` for `TypeSysId`)
  - `src/typesys/type_sys.rs` (bounded `TypeSystem` container, `SymTy`)
  - `src/layout/linear.rs`   (layout reconstructor `TypeLayout::to_vesper`)
  - `src/util.rs`            (`Ident::try_from`)

Machine bytes are modelled as `Nat` values (with explicit `% 256` width
normalisation in the byte-encoding functions); 32-byte ids (`SemId`,
`TypeSysId`, library ids) are modelled as natural numbers, ordered exactly as
the byte arrays are (big-endian byte order is lexicographically compatible
with numeric order).  SHA-256 itself is an external crate (`sha2`): the
hashing pipeline is parameterised over the compression function
`H : List Nat → List Nat`, and theorems about identities quantify over `H`,
so that they state properties of the byte stream the engine feeds to the
hash, which is what the code controls.  Fallible Rust code returns
`Except`; Rust panics/`expect`s are modelled as distinct error values.
-/

/-! ### Byte encodings -/

/-- Little-endian byte encoding of a natural number with a fixed byte width
(`u24::to_le_bytes` is `toBytesLE 3`, a one-byte length is `toBytesLE 1`). -/
def toBytesLE : Nat → Nat → List Nat
  | 0, _ => []
  | w + 1, n => n % 256 :: toBytesLE w (n / 256)

/-- Big-endian fixed-width byte encoding, used for 32-byte ids (`Bytes32`).
Big-endian byte order makes lexicographic byte comparison agree with the
numeric order of the modelled id. -/
def toBytesBE (w n : Nat) : List Nat := (toBytesLE w n).reverse

/-- The 32-byte serialisation of a `SemId`/`LibId`/`TypeSysId` payload
(`Bytes32` in the source). -/
def idBytes (n : Nat) : List Nat := toBytesBE 32 n

/-! ### The incremental hasher (`Sha256` + `CommitConsume`)

`sha2::Sha256` is an external crate.  The accumulating interface the engine
uses (`commit_consume` feeds byte chunks, `finalize` hashes the accumulated
stream) is modelled exactly; the compression itself is an abstract function
`H` over the accumulated byte stream. -/

/-- State of an incremental hasher: the byte stream consumed so far. -/
structure Hasher where
  acc : List Nat
deriving Repr, DecidableEq

/-- `Sha256::new()`: an empty hasher. -/
def Hasher.new : Hasher := ⟨[]⟩

/-- `CommitConsume::commit_consume`: feed a chunk of bytes to the hasher. -/
def Hasher.commit_consume (h : Hasher) (bs : List Nat) : Hasher := ⟨h.acc ++ bs⟩

/-- `Sha256::finalize()`: apply the hash function to the accumulated stream. -/
def Hasher.finalize (H : List Nat → List Nat) (h : Hasher) : List Nat := H h.acc

/-! ### The type model

`Ty<SemId>` lives in the `ast` module of the repository, which is not among
the provided sources. -/

/-- Modelled from the spec: `Ty<SemId>` is "a tagged-variant structural type
description (primitive, fixed array, variable list, set, map, tuple/composite,
enumeration, tagged union, optional, recursive reference) parameterized by how
it refers to nested types -- by `SemId` once compiled"; a node stores
references (ids), never embedded nodes.  References are modelled as the
numeric value of the referenced 32-byte `SemId`. -/
inductive Ty where
  | primitive (code : Nat)
  | array (ref : Nat) (len : Nat)
  | list (ref : Nat) (min max : Nat)
  | set (ref : Nat) (min max : Nat)
  | map (keyRef valRef : Nat) (min max : Nat)
  | tuple (fields : List Nat)
  | struct (fields : List (Nat × Nat))
  | enum (variants : List (Nat × Nat))
  | union (variants : List (Nat × Nat))
  | option (ref : Nat)
deriving Repr, DecidableEq

/-! ### The `TypeSystem` container (`src/typesys/type_sys.rs`)

`TypeSystem` wraps `MediumOrdMap<SemId, Ty<SemId>>`, an ordered map bounded at
`u24::MAX` entries; the map is modelled as an association list that the
(bounded) insert operation keeps sorted by key, which is how a `BTreeMap`
iterates.  The library ids hashed by `SemCommit for TypeSystem`
(`count_libs`/`lib_ids`, whose defining file is not among the sources) are
modelled from the spec as an ordered set of 32-byte library ids carried by the
system. -/

/-- `u24::MAX`: maximal entry count of a `MediumOrdMap`. -/
def MEDIUM_MAX : Nat := 16777215

/-- `amplify::confinement::Error`: the bounds error raised by the confined
map/set primitives. -/
inductive ConfinementError where
  | oversize (len maxLen : Nat)
deriving Repr, DecidableEq

/-- A type system: the ordered `SemId → Ty` map of `type_sys.rs`, modelled as
an association list sorted by key, together with the ordered set of member
library ids.  Modelled from the spec: the library ids ("ordered set of member
library ids" hashed by the identity engine) are not derivable from the map
itself; their accessor (`lib_ids`/`count_libs`) is code of the repository
missing from the sources. -/
structure TypeSystem where
  libs : List Nat
  types : List (Nat × Ty)
deriving Repr, DecidableEq

/-- `TypeSystem::new()` / `Default`: the empty system. -/
def TypeSystem.new : TypeSystem := ⟨[], []⟩

/-- The member semantic ids in iteration order (`sem_ids`: key iteration of
the ordered map). -/
def TypeSystem.sem_ids (S : TypeSystem) : List Nat := S.types.map Prod.fst

/-- `TypeSystem::count_types()` (`u24` length of the map). -/
def TypeSystem.count_types (S : TypeSystem) : Nat := S.types.length

/-- Modelled from the spec: the library count hashed ahead of the library
ids ("little-endian count of libraries"); its accessor `count_libs` is
repository code missing from the sources. -/
def TypeSystem.count_libs (S : TypeSystem) : Nat := S.libs.length

/-! ### The identity engine (`src/typesys/id.rs`) -/

/-- `TYPESYS_ID_TAG`: the bytes of the ASCII string
`urn:ubideco:strict-types:sys:v02`. -/
def TYPESYS_ID_TAG : List Nat :=
  [117, 114, 110, 58, 117, 98, 105, 100, 101, 99, 111, 58,
   115, 116, 114, 105, 99, 116, 45, 116, 121, 112, 101, 115, 58,
   115, 121, 115, 58, 118, 48, 50]

/-- `SemCommit for TypeSystem::sem_commit`: feed the little-endian library
count, each library id, the little-endian (`u24`) type count, and each member
semantic id to the hasher, in iteration order of the ordered collections. -/
def TypeSystem.sem_commit (S : TypeSystem) (h : Hasher) : Hasher :=
  let h1 := h.commit_consume (toBytesLE 1 S.count_libs)
  let h2 := S.libs.foldl (fun h id => h.commit_consume (idBytes id)) h1
  let h3 := h2.commit_consume (toBytesLE 3 S.count_types)
  S.sem_ids.foldl (fun h id => h.commit_consume (idBytes id)) h3

/-- `TypeSystem::id()`: tag-hash the domain-separation tag, feed it twice,
then the semantic commitment, and finalize.  `H` is the SHA-256 compression
(external `sha2` crate), abstracted as a function of the consumed stream. -/
def TypeSystem.id (H : List Nat → List Nat) (S : TypeSystem) : List Nat :=
  let tag := Hasher.finalize H (Hasher.new.commit_consume TYPESYS_ID_TAG)
  let h := (Hasher.new.commit_consume tag).commit_consume tag
  Hasher.finalize H (S.sem_commit h)

/-- The canonical content bytes of a type system as the specification words
them: "the little-endian byte encoding of the library count, followed by each
library id in ascending order, followed by the little-endian byte encoding of
the type count, followed by each member semantic id in ascending order". -/
def sysContentSpec (S : TypeSystem) : List Nat :=
  toBytesLE 1 S.libs.length
    ++ ((List.mergeSort S.libs).map idBytes).flatten
    ++ toBytesLE 3 S.types.length
    ++ ((List.mergeSort S.sem_ids).map idBytes).flatten

/-! Helper lemmas about the hasher stream. -/

theorem Hasher.acc_commit (h : Hasher) (bs : List Nat) :
    (h.commit_consume bs).acc = h.acc ++ bs := rfl

theorem commit_foldl_acc (ids : List Nat) (h : Hasher) (f : Nat → List Nat) :
    (ids.foldl (fun h id => h.commit_consume (f id)) h).acc
      = h.acc ++ (ids.map f).flatten := by
  induction ids generalizing h with
  | nil => simp
  | cons a l ih =>
    rw [List.foldl_cons, ih]
    simp [Hasher.acc_commit, List.append_assoc]

theorem sem_commit_acc (S : TypeSystem) (h : Hasher) :
    (S.sem_commit h).acc
      = h.acc ++ toBytesLE 1 S.libs.length ++ (S.libs.map idBytes).flatten
          ++ toBytesLE 3 S.types.length ++ (S.sem_ids.map idBytes).flatten := by
  unfold TypeSystem.sem_commit
  simp [commit_foldl_acc, Hasher.acc_commit, TypeSystem.count_libs,
    TypeSystem.count_types, List.append_assoc]

/-- C1: for every `TypeSystem` `S` (with its ordered collections iterating in
ascending order, as the `BTreeMap`/`BTreeSet` reps guarantee),
`TypeSystem::id(S)` is `SHA256(tag_hash || tag_hash || content)` where
`tag_hash` is the hash of the fixed 32-byte ASCII tag
`urn:ubideco:strict-types:sys:v02` and `content` is the little-endian library
count, each library id in ascending order, the little-endian type count, and
each member semantic id in ascending order. -/
theorem typesys_id_is_tagged_hash (H : List Nat → List Nat) (S : TypeSystem)
    (hl : List.Sorted (· < ·) S.libs) (ht : List.Sorted (· < ·) S.sem_ids) :
    TypeSystem.id H S = H (H TYPESYS_ID_TAG ++ H TYPESYS_ID_TAG ++ sysContentSpec S)
      ∧ TYPESYS_ID_TAG.length = 32
      ∧ TYPESYS_ID_TAG = (String.toList "urn:ubideco:strict-types:sys:v02").map Char.toNat := by
  refine ⟨?_, by decide, by decide⟩
  have hl' : List.mergeSort S.libs = S.libs :=
    List.mergeSort_eq_self (hl.imp le_of_lt)
  have ht' : List.mergeSort S.sem_ids = S.sem_ids :=
    List.mergeSort_eq_self (ht.imp le_of_lt)
  unfold TypeSystem.id
  simp [Hasher.finalize, Hasher.new, Hasher.acc_commit, sem_commit_acc,
    sysContentSpec, hl', ht', List.append_assoc]

/-- Witness for C1 at a concrete hash function and type system. -/
theorem typesys_id_is_tagged_hash_witness :
    TypeSystem.id (fun l => [l.length]) ⟨[5, 9], [(1, .primitive 0), (3, .primitive 7)]⟩
        = (fun l => [l.length])
            ((fun l => [l.length]) TYPESYS_ID_TAG ++ (fun l => [l.length]) TYPESYS_ID_TAG
              ++ sysContentSpec ⟨[5, 9], [(1, .primitive 0), (3, .primitive 7)]⟩)
      ∧ TYPESYS_ID_TAG.length = 32
      ∧ TYPESYS_ID_TAG = (String.toList "urn:ubideco:strict-types:sys:v02").map Char.toNat :=
  typesys_id_is_tagged_hash (fun l => [l.length]) _ (by decide) (by decide)

/-! ### The bounded ordered-map primitive

`MediumOrdMap<SemId, Ty<SemId>> = Confined<BTreeMap<SemId, Ty>, 0, U24>` from
the (external) `amplify::confinement` crate: a `BTreeMap` — modelled as an
association list kept sorted by key — whose `insert` first checks the length
bound and only then inserts.  Bound semantics: inserting a *new* key when the
map already holds `u24::MAX` entries fails with `confinement::Error::Oversize`
and leaves the map untouched; replacing an existing key is always allowed. -/

/-- `BTreeMap::contains_key` on the association list. -/
def containsKey (m : List (Nat × Ty)) (k : Nat) : Bool :=
  m.any (fun kv => kv.1 = k)

/-- `BTreeMap::insert` on the sorted association list: replaces the value at
an existing key; otherwise places the new entry at its ordered position. -/
def sortedInsertKV : List (Nat × Ty) → Nat → Ty → List (Nat × Ty)
  | [], k, v => [(k, v)]
  | (k0, v0) :: rest, k, v =>
    if k < k0 then (k, v) :: (k0, v0) :: rest
    else if k = k0 then (k, v) :: rest
    else (k0, v0) :: sortedInsertKV rest k v

/-- `Confined<BTreeMap, 0, U24>::insert`: the bound check performed by the
bounded-map primitive on every insert, then the `BTreeMap` insert.  The
returned `Bool` models the `r.is_some()` of `insert_unchecked` (whether the
key was already present). -/
def mediumMapInsert (m : List (Nat × Ty)) (k : Nat) (v : Ty) :
    Except ConfinementError (List (Nat × Ty) × Bool) :=
  if MEDIUM_MAX ≤ m.length ∧ containsKey m k = false then
    .error (.oversize m.length MEDIUM_MAX)
  else .ok (sortedInsertKV m k v, containsKey m k)

/-- `TypeSystem::insert_unchecked`: delegate to the bounded map's insert. -/
def TypeSystem.insert_unchecked (S : TypeSystem) (sem_id : Nat) (ty : Ty) :
    Except ConfinementError (TypeSystem × Bool) :=
  (mediumMapInsert S.types sem_id ty).map (fun r => (⟨S.libs, r.1⟩, r.2))

/-- Fold a sequence of inserts into the map, keeping the previous map when an
insert reports a bounds error (the error leaves the map untouched). -/
def buildTypesMap (ops : List (Nat × Ty)) : List (Nat × Ty) :=
  ops.foldl (fun m kv =>
    match mediumMapInsert m kv.1 kv.2 with
    | .ok r => r.1
    | .error _ => m) []

/-- `BTreeSet::insert` on a sorted duplicate-free list (used for the ordered
set of library ids and for `SmallOrdSet<LibName>`). -/
def sortedInsertSet : List Nat → Nat → List Nat
  | [], k => [k]
  | k0 :: rest, k =>
    if k < k0 then k :: k0 :: rest
    else if k = k0 then k0 :: rest
    else k0 :: sortedInsertSet rest k

/-- Assemble a `TypeSystem` from a sequence of library-id registrations and a
sequence of type inserts, in the given (arbitrary) order. -/
def TypeSystem.assemble (ls : List Nat) (ops : List (Nat × Ty)) : TypeSystem :=
  ⟨ls.foldl sortedInsertSet [], buildTypesMap ops⟩

/-! Ordering facts about the primitives. -/

theorem keys_sortedInsertKV (m : List (Nat × Ty)) (k : Nat) (v : Ty) :
    ∀ x, x ∈ (sortedInsertKV m k v).map Prod.fst ↔ x = k ∨ x ∈ m.map Prod.fst := by
  intro x
  induction m with
  | nil => simp [sortedInsertKV]
  | cons kv rest ih =>
    obtain ⟨k0, v0⟩ := kv
    by_cases h1 : k < k0
    · simp [sortedInsertKV, h1]
    · by_cases h2 : k = k0
      · subst h2
        simp [sortedInsertKV, h1]
      · simp [sortedInsertKV, h1, h2, ih]
        tauto

theorem sorted_sortedInsertKV (m : List (Nat × Ty)) (k : Nat) (v : Ty)
    (h : List.Sorted (· < ·) (m.map Prod.fst)) :
    List.Sorted (· < ·) ((sortedInsertKV m k v).map Prod.fst) := by
  induction m with
  | nil => simp [sortedInsertKV]
  | cons kv rest ih =>
    obtain ⟨k0, v0⟩ := kv
    simp only [List.map_cons, List.sorted_cons] at h
    by_cases h1 : k < k0
    · simp only [sortedInsertKV, if_pos h1, List.map_cons, List.sorted_cons]
      refine ⟨?_, h.1, h.2⟩
      intro b hb
      rcases List.mem_cons.mp hb with rfl | hb
      · exact h1
      · exact h1.trans (h.1 b hb)
    · by_cases h2 : k = k0
      · subst h2
        simpa [sortedInsertKV, h1] using h
      · have hk0 : k0 < k := by omega
        simp only [sortedInsertKV, if_neg h1, if_neg h2, List.map_cons,
          List.sorted_cons]
        refine ⟨?_, ih h.2⟩
        intro b hb
        rcases (keys_sortedInsertKV rest k v b).mp hb with rfl | hb
        · exact hk0
        · exact h.1 b hb

theorem sorted_buildTypesMap (ops : List (Nat × Ty)) :
    List.Sorted (· < ·) ((buildTypesMap ops).map Prod.fst) := by
  suffices h : ∀ (m : List (Nat × Ty)), List.Sorted (· < ·) (m.map Prod.fst) →
      List.Sorted (· < ·)
        ((ops.foldl (fun m kv =>
          match mediumMapInsert m kv.1 kv.2 with
          | .ok r => r.1
          | .error _ => m) m).map Prod.fst) by
    exact h [] (by simp)
  induction ops with
  | nil => intro m hm; exact hm
  | cons op rest ih =>
    intro m hm
    rw [List.foldl_cons]
    apply ih
    unfold mediumMapInsert
    by_cases hc : MEDIUM_MAX ≤ m.length ∧ containsKey m op.1 = false
    · simpa [hc] using hm
    · simpa [hc] using sorted_sortedInsertKV m op.1 op.2 hm

theorem mem_sortedInsertSet (l : List Nat) (k : Nat) :
    ∀ x, x ∈ sortedInsertSet l k ↔ x = k ∨ x ∈ l := by
  intro x
  induction l with
  | nil => simp [sortedInsertSet]
  | cons k0 rest ih =>
    by_cases h1 : k < k0
    · simp [sortedInsertSet, h1]
    · by_cases h2 : k = k0
      · subst h2
        simp [sortedInsertSet, h1]
      · simp [sortedInsertSet, h1, h2, ih]
        tauto

theorem sorted_sortedInsertSet (l : List Nat) (k : Nat)
    (h : List.Sorted (· < ·) l) :
    List.Sorted (· < ·) (sortedInsertSet l k) := by
  induction l with
  | nil => simp [sortedInsertSet]
  | cons k0 rest ih =>
    simp only [List.sorted_cons] at h
    by_cases h1 : k < k0
    · simp only [sortedInsertSet, if_pos h1, List.sorted_cons]
      refine ⟨?_, h.1, h.2⟩
      intro b hb
      rcases List.mem_cons.mp hb with rfl | hb
      · exact h1
      · exact h1.trans (h.1 b hb)
    · by_cases h2 : k = k0
      · subst h2
        simpa [sortedInsertSet, h1] using h
      · have hk0 : k0 < k := by omega
        simp only [sortedInsertSet, if_neg h1, if_neg h2, List.sorted_cons]
        refine ⟨?_, ih h.2⟩
        intro b hb
        rcases (mem_sortedInsertSet rest k b).mp hb with rfl | hb
        · exact hk0
        · exact h.1 b hb

theorem sorted_foldl_sortedInsertSet (ls : List Nat) (l : List Nat)
    (h : List.Sorted (· < ·) l) :
    List.Sorted (· < ·) (ls.foldl sortedInsertSet l) := by
  induction ls generalizing l with
  | nil => exact h
  | cons a rest ih => exact ih _ (sorted_sortedInsertSet l a h)

theorem sorted_assemble_libs (ls : List Nat) (ops : List (Nat × Ty)) :
    List.Sorted (· < ·) (TypeSystem.assemble ls ops).libs :=
  sorted_foldl_sortedInsertSet ls [] (by simp)

theorem sorted_assemble_sem_ids (ls : List Nat) (ops : List (Nat × Ty)) :
    List.Sorted (· < ·) (TypeSystem.assemble ls ops).sem_ids :=
  sorted_buildTypesMap ops

/-- Two strictly sorted lists with the same members are equal. -/
theorem sorted_lt_eq_of_mem_iff {l1 l2 : List Nat}
    (h1 : List.Sorted (· < ·) l1) (h2 : List.Sorted (· < ·) l2)
    (hm : ∀ x, x ∈ l1 ↔ x ∈ l2) : l1 = l2 := by
  have hp : l1.Perm l2 := (List.perm_ext_iff_of_nodup h1.nodup h2.nodup).mpr hm
  exact List.eq_of_perm_of_sorted hp
    (h1.imp (fun h => le_of_lt h)) (h2.imp (fun h => le_of_lt h))

/-- C5: whatever the sequence of library registrations and type inserts used
to build a `TypeSystem`, the member iteration used by identity hashing
(`sem_ids`, the same map iteration the `Display` rendering loops over) visits
semantic ids in strictly ascending order, and the library ids iterate in
strictly ascending order as well. -/
theorem typesys_iteration_ascending (ls : List Nat) (ops : List (Nat × Ty)) :
    List.Sorted (· < ·) (TypeSystem.assemble ls ops).sem_ids
      ∧ List.Sorted (· < ·) (TypeSystem.assemble ls ops).libs :=
  ⟨sorted_assemble_sem_ids ls ops, sorted_assemble_libs ls ops⟩

/-- C6: two type systems assembled from insert sequences yielding the same
set of member semantic ids and the same set of library ids have the same
`TypeSystem::id`, independently of insertion order (and of the member type
bodies, which the system id does not hash). -/
theorem typesys_id_order_independent
    (H : List Nat → List Nat) (ls1 ls2 : List Nat) (ops1 ops2 : List (Nat × Ty))
    (hsem : ∀ x, x ∈ (TypeSystem.assemble ls1 ops1).sem_ids
      ↔ x ∈ (TypeSystem.assemble ls2 ops2).sem_ids)
    (hlib : ∀ x, x ∈ (TypeSystem.assemble ls1 ops1).libs
      ↔ x ∈ (TypeSystem.assemble ls2 ops2).libs) :
    TypeSystem.id H (TypeSystem.assemble ls1 ops1)
      = TypeSystem.id H (TypeSystem.assemble ls2 ops2) := by
  have e1 : (TypeSystem.assemble ls1 ops1).sem_ids
      = (TypeSystem.assemble ls2 ops2).sem_ids :=
    sorted_lt_eq_of_mem_iff (sorted_assemble_sem_ids ls1 ops1)
      (sorted_assemble_sem_ids ls2 ops2) hsem
  have e2 : (TypeSystem.assemble ls1 ops1).libs
      = (TypeSystem.assemble ls2 ops2).libs :=
    sorted_lt_eq_of_mem_iff (sorted_assemble_libs ls1 ops1)
      (sorted_assemble_libs ls2 ops2) hlib
  have e3 : (TypeSystem.assemble ls1 ops1).types.length
      = (TypeSystem.assemble ls2 ops2).types.length := by
    have h := congrArg List.length e1
    simpa [TypeSystem.sem_ids] using h
  simp only [TypeSystem.id, Hasher.finalize, sem_commit_acc]
  rw [e1, e2, e3]

/-- Witness for C6: the same members inserted in two different orders, with
different bodies at the shared keys, produce the same system id. -/
theorem typesys_id_order_independent_witness :
    TypeSystem.id (fun l => [l.length])
        (TypeSystem.assemble [2, 1] [(5, .primitive 1), (3, .primitive 2)])
      = TypeSystem.id (fun l => [l.length])
          (TypeSystem.assemble [1, 2] [(3, .primitive 0), (5, .primitive 9)]) :=
  typesys_id_order_independent (fun l => [l.length]) [2, 1] [1, 2]
    [(5, .primitive 1), (3, .primitive 2)] [(3, .primitive 0), (5, .primitive 9)]
    (fun _ => Iff.rfl) (fun _ => Iff.rfl)

/-! ### The serialized-size ceiling (C4)

The canonical strict-encoding codec is an external capability ("encode T to
canonical bytes"); its byte counts below are modelled from the spec so that
the 2^24-byte serialized-size ceiling of a `TypeSystem` can be expressed:
every node is one tag byte plus its payload, references are the 32 bytes of
the referenced id, collection-size descriptors (`Sizing`) are two `u16`
bounds, field/variant collections carry a one-byte count and a per-element
payload. -/

/-- Modelled from the spec: canonical serialized byte size of one `Ty` node
(the codec itself is an external dependency; only the order of magnitude of
the counts matters for the bound results). -/
def tySize : Ty → Nat
  | .primitive _ => 2
  | .array _ _ => 35
  | .list _ _ _ => 37
  | .set _ _ _ => 37
  | .map _ _ _ _ => 69
  | .tuple fields => 2 + 32 * fields.length
  | .struct fields => 2 + 33 * fields.length
  | .enum variants => 2 + 2 * variants.length
  | .union variants => 2 + 33 * variants.length
  | .option _ => 33

/-- Modelled from the spec: canonical serialized byte size of the type map of
a `TypeSystem` (a `u24` length prefix, then each entry as a 32-byte key and
the node body). -/
def mapSerSize (m : List (Nat × Ty)) : Nat :=
  3 + (m.map (fun kv => 32 + tySize kv.2)).sum

theorem containsKey_cons_false {k0 : Nat} {v0 : Ty} {rest : List (Nat × Ty)}
    {k : Nat} (h : containsKey ((k0, v0) :: rest) k = false) :
    ¬ k = k0 ∧ containsKey rest k = false := by
  simp only [containsKey, List.any_cons, Bool.or_eq_false_iff] at h
  refine ⟨?_, h.2⟩
  have h1 := h.1
  simp only [decide_eq_false_iff_not] at h1
  exact fun hk => h1 (by simp [hk])

/-- Inserting a genuinely new key is, up to permutation, consing the entry. -/
theorem sortedInsertKV_perm (m : List (Nat × Ty)) (k : Nat) (v : Ty)
    (h : containsKey m k = false) :
    (sortedInsertKV m k v).Perm ((k, v) :: m) := by
  induction m with
  | nil => simp [sortedInsertKV]
  | cons kv rest ih =>
    obtain ⟨k0, v0⟩ := kv
    obtain ⟨hne, hrest⟩ := containsKey_cons_false h
    by_cases h1 : k < k0
    · simp [sortedInsertKV, h1]
    · simp only [sortedInsertKV, if_neg h1, if_neg hne]
      exact ((ih hrest).cons (k0, v0)).trans (List.Perm.swap (k, v) (k0, v0) rest)

theorem containsKey_range_big (n k : Nat) (v : Ty) (h : n ≤ k) :
    containsKey ((List.range n).map (fun i => (i, v))) k = false := by
  simp only [containsKey, List.any_eq_false, List.mem_map, List.mem_range]
  rintro x ⟨i, hi, rfl⟩
  intro hk
  simp only [decide_eq_true_eq] at hk
  omega

/-- C4 (amended): the bound the bounded-map primitive enforces on every
insert is the entry-count bound: an insert that would bring the entry count
to 2^24 or more fails with a bounds (`Oversize`) error, returning no modified
map (the entry is not added, nothing is truncated).  The serialized-size
ceiling is not checked at insert time (see the counterexample). -/
theorem insert_count_bound (libs : List Nat) (m : List (Nat × Ty)) (k : Nat)
    (v : Ty) (hfull : MEDIUM_MAX ≤ m.length) (hnew : containsKey m k = false) :
    TypeSystem.insert_unchecked ⟨libs, m⟩ k v
      = .error (.oversize m.length MEDIUM_MAX) := by
  unfold TypeSystem.insert_unchecked mediumMapInsert
  simp [hfull, hnew, Except.map]

/-- One entry for every key below `u24::MAX`: a full map. -/
def fullMap : List (Nat × Ty) :=
  (List.range MEDIUM_MAX).map (fun i => (i, .primitive 0))

theorem fullMap_length : MEDIUM_MAX ≤ fullMap.length := by
  simp only [fullMap, List.length_map, List.length_range, le_refl]

theorem fullMap_fresh : containsKey fullMap MEDIUM_MAX = false := by
  simp only [fullMap]
  exact containsKey_range_big MEDIUM_MAX MEDIUM_MAX _ le_rfl

/-- Witness for C4 (amended): a map already holding `u24::MAX` entries
rejects the next fresh key. -/
theorem insert_count_bound_witness :
    TypeSystem.insert_unchecked ⟨[], fullMap⟩ MEDIUM_MAX (.primitive 0)
      = .error (.oversize fullMap.length MEDIUM_MAX) :=
  insert_count_bound [] fullMap MEDIUM_MAX (.primitive 0)
    fullMap_length fullMap_fresh

/-- A 255-field tuple node: 8162 canonical bytes. -/
def fatTuple : Ty := .tuple (List.range 255)

/-- 2047 entries of 8194 bytes each: 16,775,121 canonical bytes, still below
the 2^24 ceiling, and far below the 2^24 - 1 entry-count bound. -/
def bigSys : List (Nat × Ty) := (List.range 2047).map (fun i => (i, fatTuple))

/-- C4 counterexample: inserting one more fat entry into `bigSys` pushes the
canonical serialized size beyond the 2^24-byte ceiling (to 16,781,315 bytes),
yet the bounded-map primitive accepts the insert: the claim that an insert
exceeding the serialized-size ceiling fails with a bounds error is false —
only the entry count is checked on insert. -/
theorem insert_size_bound_counterexample :
    mediumMapInsert bigSys 2047 fatTuple
        = .ok (sortedInsertKV bigSys 2047 fatTuple, false)
      ∧ 2 ^ 24 < mapSerSize (sortedInsertKV bigSys 2047 fatTuple) := by
  have hnew : containsKey bigSys 2047 = false :=
    containsKey_range_big 2047 2047 fatTuple le_rfl
  have hlen : bigSys.length = 2047 := by simp [bigSys]
  constructor
  · unfold mediumMapInsert
    rw [hnew, hlen]
    simp [MEDIUM_MAX]
  · have hperm := (sortedInsertKV_perm bigSys 2047 fatTuple hnew).map
      (fun kv => 32 + tySize kv.2)
    unfold mapSerSize
    rw [hperm.sum_eq]
    have hsz : tySize fatTuple = 8162 := by
      simp only [fatTuple, tySize, List.length_range]
    simp only [List.map_cons, List.sum_cons, bigSys, List.map_map]
    have : ((List.range 2047).map
        ((fun kv => 32 + tySize kv.2) ∘ fun i => (i, fatTuple)))
        = List.replicate 2047 8194 := by
      rw [show ((fun (kv : Nat × Ty) => 32 + tySize kv.2) ∘ fun i => (i, fatTuple))
          = fun _ => 8194 by funext i; simp only [Function.comp_apply, hsz]]
      simp [List.map_const]
    rw [this, hsz]
    norm_num [List.sum_replicate]

/-! ### Identifier validation (`src/util.rs`)

ASCII characters (`amplify::ascii::AsciiChar`) are modelled as their byte
values (< 128); the confined 1-to-32-character `AsciiString` is a byte list
whose length bounds appear as hypotheses. -/

/-- `AsciiChar::is_alphabetic` (ASCII `A`-`Z`, `a`-`z`). -/
def isAlphabetic (c : Nat) : Bool :=
  decide ((65 ≤ c ∧ c ≤ 90) ∨ (97 ≤ c ∧ c ≤ 122))

/-- `AsciiChar::is_ascii_alphanumeric` (ASCII digits and letters). -/
def isAsciiAlphanumeric (c : Nat) : Bool :=
  decide ((48 ≤ c ∧ c ≤ 57) ∨ (65 ≤ c ∧ c ≤ 90) ∨ (97 ≤ c ∧ c ≤ 122))

/-- `InvalidIdent` of `util.rs`. -/
inductive InvalidIdent where
  | nonAlphabetic (c : Nat)
  | invalidChar (c : Nat)
  | nonAsciiChar
  | confinement
deriving Repr, DecidableEq

/-- `Ident::try_from`: reject a non-alphabetic first character, then scan the
whole byte slice for the first character that is neither ASCII alphanumeric
nor `_` (byte 95).  The `[]` case is unreachable for a
`Confined<AsciiString, 1, 32>` input and maps to the confinement error its
construction would have produced. -/
def Ident.try_from : List Nat → Except InvalidIdent (List Nat)
  | [] => .error .confinement
  | first :: rest =>
    if isAlphabetic first = false then .error (.nonAlphabetic first)
    else
      match (first :: rest).find? (fun ch => !(isAsciiAlphanumeric ch) && !(ch == 95)) with
      | some ch => .error (.invalidChar ch)
      | none => .ok (first :: rest)

/-- The behaviour C9 words: accept iff the first character is alphabetic and
every character is alphanumeric or underscore; otherwise `NonAlphabetic` with
the first character, or `InvalidChar` with the first offending *later*
character (the scan here starts after the first character). -/
def identSpec (first : Nat) (rest : List Nat) : Except InvalidIdent (List Nat) :=
  if isAlphabetic first = false then .error (.nonAlphabetic first)
  else
    match rest.find? (fun ch => !(isAsciiAlphanumeric ch) && !(ch == 95)) with
    | some ch => .error (.invalidChar ch)
    | none => .ok (first :: rest)

/-- C9: on every 1-to-32-character ASCII input, `Ident::try_from` returns
`Ok` exactly when the input starts with an alphabetic character and every
character is ASCII alphanumeric or underscore, and otherwise returns
`NonAlphabetic` carrying the first character or `InvalidChar` carrying the
first offending later character (`identSpec` is that case analysis). -/
theorem ident_try_from_spec (first : Nat) (rest : List Nat)
    (hascii : ∀ c ∈ first :: rest, c < 128) (hlen : rest.length + 1 ≤ 32) :
    Ident.try_from (first :: rest) = identSpec first rest
      ∧ (Ident.try_from (first :: rest) = .ok (first :: rest)
          ↔ isAlphabetic first = true
            ∧ ∀ c ∈ first :: rest, isAsciiAlphanumeric c = true ∨ c = 95) := by
  constructor
  · unfold Ident.try_from identSpec
    by_cases ha : isAlphabetic first = false
    · simp [ha]
    · have ha' : isAlphabetic first = true := by
        revert ha; cases isAlphabetic first <;> simp
      have hfirst : (!(isAsciiAlphanumeric first) && !(first == 95)) = false := by
        have : isAsciiAlphanumeric first = true := by
          simp only [isAlphabetic, decide_eq_true_eq] at ha'
          simp only [isAsciiAlphanumeric, decide_eq_true_eq]
          tauto
        simp [this]
      simp [ha, List.find?_cons, hfirst]
  · by_cases ha : isAlphabetic first = false
    · unfold Ident.try_from
      simp [ha]
    · have ha' : isAlphabetic first = true := by
        revert ha; cases isAlphabetic first <;> simp
      have hred : Ident.try_from (first :: rest)
          = (match (first :: rest).find?
                (fun ch => !(isAsciiAlphanumeric ch) && !(ch == 95)) with
             | some ch => Except.error (InvalidIdent.invalidChar ch)
             | none => Except.ok (first :: rest)) := by
        show (if isAlphabetic first = false
              then Except.error (InvalidIdent.nonAlphabetic first)
              else match (first :: rest).find?
                  (fun ch => !(isAsciiAlphanumeric ch) && !(ch == 95)) with
                | some ch => Except.error (InvalidIdent.invalidChar ch)
                | none => Except.ok (first :: rest)) = _
        rw [if_neg ha]
      rw [hred]
      cases hf : (first :: rest).find? (fun ch => !(isAsciiAlphanumeric ch) && !(ch == 95)) with
      | some ch =>
        constructor
        · intro h; simp at h
        · rintro ⟨-, hall⟩
          have hmem := List.find?_some hf
          have hin := List.mem_of_find?_eq_some hf
          rcases hall ch hin with hc | hc
          · simp [hc] at hmem
          · subst hc; simp at hmem
      | none =>
        constructor
        · intro _
          refine ⟨ha', ?_⟩
          intro c hc
          have hnc := List.find?_eq_none.mp hf c hc
          simp only [Bool.and_eq_true, Bool.not_eq_true', beq_eq_false_iff_ne,
            ne_eq, not_and, Bool.not_eq_false] at hnc
          by_cases hk : isAsciiAlphanumeric c = true
          · exact Or.inl hk
          · have hk' : isAsciiAlphanumeric c = false := by
              revert hk; cases isAsciiAlphanumeric c <;> simp
            exact Or.inr (not_not.mp (hnc hk'))
        · intro _; rfl

/-- Witness for C9 at a concrete valid identifier. -/
theorem ident_try_from_spec_witness :
    Ident.try_from [97, 95, 57] = identSpec 97 [95, 57]
      ∧ (Ident.try_from [97, 95, 57] = .ok [97, 95, 57]
          ↔ isAlphabetic 97 = true
            ∧ ∀ c ∈ [97, 95, 57], isAsciiAlphanumeric c = true ∨ c = 95) :=
  ident_try_from_spec 97 [95, 57] (by decide) (by decide)

/-! ### `SymTy` and the small confined origin set (`src/typesys/type_sys.rs`)

`SmallOrdSet<LibName> = Confined<BTreeSet<LibName>, 0, U8>`: at most 255
elements.  Library names are modelled as numeric codes; the set, like the
ordered map above, is a sorted duplicate-free list. -/

/-- `u8::MAX`: maximal element count of a `SmallOrdSet`. -/
def SMALL_MAX : Nat := 255

/-- `Confined<BTreeSet, 0, U8>::insert`: bound check, then ordered-set
insert. -/
def smallSetInsert (s : List Nat) (x : Nat) : Except ConfinementError (List Nat) :=
  if SMALL_MAX ≤ s.length ∧ ¬ x ∈ s then .error (.oversize s.length SMALL_MAX)
  else .ok (sortedInsertSet s x)

/-- `Confined::try_from_iter`: fold the iterator into an empty confined set,
failing as soon as an insert would exceed the bound. -/
def smallOrdSetTryFromIter (l : List Nat) : Except ConfinementError (List Nat) :=
  l.foldlM smallSetInsert []

/-- The unbounded set fold: the deduplicated, sorted content of the
iterator. -/
def sortedDedup (l : List Nat) : List Nat := l.foldl sortedInsertSet []

/-- `SymTy` of `type_sys.rs`: original name, origin libraries, definition. -/
structure SymTy where
  name : Option Nat
  orig : List Nat
  ty : Ty
deriving Repr, DecidableEq

/-- The panic of `SymTy::with`'s `.expect(...)` (whose message claims a
256-name limit while the set type admits at most 255 elements). -/
inductive SymTyPanic where
  | tooManyLibs
deriving Repr, DecidableEq

/-- `SymTy::with`: `Confined::try_from_iter(orig).expect(...)`, then build
the record. -/
def SymTy.with' (name : Option Nat) (orig : List Nat) (ty : Ty) :
    Except SymTyPanic SymTy :=
  match smallOrdSetTryFromIter orig with
  | .ok s => .ok ⟨name, s, ty⟩
  | .error _ => .error .tooManyLibs

/-- `SymTy::named`: a single origin library. -/
def SymTy.named (lib_name ty_name : Nat) (ty : Ty) : Except SymTyPanic SymTy :=
  SymTy.with' (some ty_name) [lib_name] ty

/-- `SymTy::unnamed`: no origin libraries. -/
def SymTy.unnamed (ty : Ty) : Except SymTyPanic SymTy :=
  SymTy.with' none [] ty

theorem length_le_sortedInsertSet (s : List Nat) (x : Nat) :
    s.length ≤ (sortedInsertSet s x).length := by
  induction s with
  | nil => simp [sortedInsertSet]
  | cons k0 rest ih =>
    by_cases h1 : x < k0
    · simp [sortedInsertSet, h1]
    · by_cases h2 : x = k0
      · simp [sortedInsertSet, h1, h2]
      · simp only [sortedInsertSet, if_neg h1, if_neg h2, List.length_cons]
        omega

theorem length_sortedInsertSet_of_not_mem (s : List Nat) (x : Nat)
    (h : ¬ x ∈ s) :
    (sortedInsertSet s x).length = s.length + 1 := by
  induction s with
  | nil => simp [sortedInsertSet]
  | cons k0 rest ih =>
    have hx : ¬ x = k0 := fun hk => h (by simp [hk])
    have hr : ¬ x ∈ rest := fun hk => h (by simp [hk])
    by_cases h1 : x < k0
    · simp [sortedInsertSet, h1]
    · simp only [sortedInsertSet, if_neg h1, if_neg hx, List.length_cons, ih hr]

theorem length_le_foldl_sortedInsertSet (l : List Nat) (s : List Nat) :
    s.length ≤ (l.foldl sortedInsertSet s).length := by
  induction l generalizing s with
  | nil => simp
  | cons a rest ih =>
    exact (length_le_sortedInsertSet s a).trans (ih (sortedInsertSet s a))

theorem sortedInsertSet_of_mem (s : List Nat) (x : Nat)
    (hs : List.Sorted (· < ·) s) (h : x ∈ s) :
    sortedInsertSet s x = s := by
  induction s with
  | nil => cases h
  | cons k0 rest ih =>
    simp only [List.sorted_cons] at hs
    rcases List.mem_cons.mp h with rfl | hr
    · simp [sortedInsertSet]
    · have hgt : k0 < x := hs.1 x hr
      have h1 : ¬ x < k0 := by omega
      have h2 : ¬ x = k0 := by omega
      simp only [sortedInsertSet, if_neg h1, if_neg h2, List.cons.injEq, true_and]
      exact ih hs.2 hr

/-- The bounded fold succeeds exactly when the deduplicated content fits the
bound, and then returns it. -/
theorem foldlM_smallSetInsert_ok (l : List Nat) :
    ∀ s, List.Sorted (· < ·) s →
      (l.foldl sortedInsertSet s).length ≤ SMALL_MAX →
      l.foldlM smallSetInsert s = .ok (l.foldl sortedInsertSet s) := by
  induction l with
  | nil => intro s _ _; rfl
  | cons a rest ih =>
    intro s hs hb
    rw [List.foldl_cons] at hb ⊢
    have hstep : smallSetInsert s a = .ok (sortedInsertSet s a) := by
      unfold smallSetInsert
      rw [if_neg]
      rintro ⟨hlen, hmem⟩
      have h1 := length_sortedInsertSet_of_not_mem s a hmem
      have h2 := length_le_foldl_sortedInsertSet rest (sortedInsertSet s a)
      omega
    rw [List.foldlM_cons, hstep]
    exact ih (sortedInsertSet s a) (sorted_sortedInsertSet s a hs) hb

theorem foldlM_smallSetInsert_err (l : List Nat) :
    ∀ s, List.Sorted (· < ·) s → s.length ≤ SMALL_MAX →
      SMALL_MAX < (l.foldl sortedInsertSet s).length →
      ∃ e, l.foldlM smallSetInsert s = .error e := by
  induction l with
  | nil =>
    intro s _ hsb hb
    simp only [List.foldl_nil] at hb
    omega
  | cons a rest ih =>
    intro s hs hsb hb
    rw [List.foldl_cons] at hb
    by_cases hcond : SMALL_MAX ≤ s.length ∧ ¬ a ∈ s
    · refine ⟨.oversize s.length SMALL_MAX, ?_⟩
      rw [List.foldlM_cons]
      unfold smallSetInsert
      rw [if_pos hcond]
      rfl
    · have hstep : smallSetInsert s a = .ok (sortedInsertSet s a) := by
        unfold smallSetInsert
        rw [if_neg hcond]
      have hlen : (sortedInsertSet s a).length ≤ SMALL_MAX := by
        rcases not_and_or.mp hcond with hlt | hmem
        · have := length_sortedInsertSet_of_not_mem s a
          by_cases hm : a ∈ s
          · rw [sortedInsertSet_of_mem s a hs hm]; exact hsb
          · rw [this hm]; omega
        · rw [sortedInsertSet_of_mem s a hs (not_not.mp hmem)]; exact hsb
      obtain ⟨e, he⟩ := ih (sortedInsertSet s a)
        (sorted_sortedInsertSet s a hs) hlen hb
      refine ⟨e, ?_⟩
      rw [List.foldlM_cons, hstep]
      exact he

/-- C10: `SymTy::with` panics exactly when the origin iterator carries more
distinct library names than the 255-element `SmallOrdSet` admits (the panic
message says 256); within the bound it returns the given name, the
deduplicated (sorted-set) origins, and the type, so `SymTy::named` and
`SymTy::unnamed` never panic. -/
theorem symty_with_bound (name : Option Nat) (orig : List Nat) (ty : Ty)
    (lib_name ty_name : Nat) :
    (SMALL_MAX < (sortedDedup orig).length →
        SymTy.with' name orig ty = .error .tooManyLibs)
      ∧ ((sortedDedup orig).length ≤ SMALL_MAX →
          SymTy.with' name orig ty = .ok ⟨name, sortedDedup orig, ty⟩)
      ∧ SymTy.named lib_name ty_name ty = .ok ⟨some ty_name, [lib_name], ty⟩
      ∧ SymTy.unnamed ty = .ok ⟨none, [], ty⟩ := by
  refine ⟨?_, ?_, ?_, rfl⟩
  · intro hb
    obtain ⟨e, he⟩ := foldlM_smallSetInsert_err orig [] (by simp) (by simp [SMALL_MAX]) hb
    unfold SymTy.with' smallOrdSetTryFromIter
    rw [he]
  · intro hb
    have h := foldlM_smallSetInsert_ok orig [] (by simp) hb
    unfold SymTy.with' smallOrdSetTryFromIter
    rw [h]
    rfl
  · unfold SymTy.named
    have h : smallOrdSetTryFromIter [lib_name] = .ok [lib_name] := by
      unfold smallOrdSetTryFromIter
      rw [List.foldlM_cons]
      have : smallSetInsert [] lib_name = .ok [lib_name] := by
        unfold smallSetInsert
        rw [if_neg (by simp [SMALL_MAX])]
        rfl
      rw [this]
      rfl
    unfold SymTy.with'
    rw [h]

/-- Witness for C10: a duplicated three-element origin iterator stays within
the bound and is deduplicated. -/
theorem symty_with_bound_witness :
    ((sortedDedup [3, 1, 3]).length ≤ SMALL_MAX →
        SymTy.with' (some 7) [3, 1, 3] (.primitive 0)
          = .ok ⟨some 7, sortedDedup [3, 1, 3], .primitive 0⟩)
      ∧ (sortedDedup [3, 1, 3]).length ≤ SMALL_MAX
      ∧ SymTy.named 4 9 (.primitive 0) = .ok ⟨some 9, [4], .primitive 0⟩ :=
  ⟨(symty_with_bound (some 7) [3, 1, 3] (.primitive 0) 4 9).2.1, by decide,
    (symty_with_bound (some 7) [3, 1, 3] (.primitive 0) 4 9).2.2.1⟩

/-! ### The layout reconstructor (`src/layout/linear.rs`)

`TypeLayout::to_vesper` rebuilds a rooted tree from the flat, depth-annotated
preorder sequence `items`.  The payload each item renders to
(`item.to_vesper()`, a vesper expression) is an opaque type parameter `α`
here; `TypeInfo` itself lives in the `typesys` module, which is not among the
sources, so the item is modelled from the spec as "a rendering descriptor and
a non-negative integer depth".  The reconstruction's panics and `expect`s are
distinct error values: `debug_assert_eq!(root, None)` and
`debug_assert!(depth > 0)` are the fatal root/depth inconsistencies, the
`panic!` is `skippedLevel`, the four `expect`s are `rootUnset` ("already
set"), `inconsistency` ("algorithm inconsistency"), `tooManyItems` ("too much
items") and `zeroItems` ("zero items"). -/

/-- A rendered vesper tree node: expression plus child content (the content
vector of the `vesper` crate is confined; its bound is `VESPER_MAX`). -/
inductive TypeVesper (α : Type) where
  | mk (expr : α) (content : List (TypeVesper α))

/-- Modelled from the spec: the "small fixed bound" on the children of a
single node ("the layout format itself is bounded, to keep rendered output
finite and index types narrow"); the `vesper` crate's confined content
vector is not among the sources. -/
def VESPER_MAX : Nat := 255

def TypeVesper.expr {α : Type} : TypeVesper α → α
  | .mk e _ => e

def TypeVesper.content {α : Type} : TypeVesper α → List (TypeVesper α)
  | .mk _ cs => cs

@[simp]
theorem TypeVesper.expr_mk {α : Type} (e : α) (cs : List (TypeVesper α)) :
    (TypeVesper.mk e cs).expr = e := rfl

@[simp]
theorem TypeVesper.content_mk {α : Type} (e : α) (cs : List (TypeVesper α)) :
    (TypeVesper.mk e cs).content = cs := rfl

/-- One item of a `TypeLayout`: the descriptor (already rendered to the
vesper expression it will contribute) and the preorder depth. -/
structure TypeInfo (α : Type) where
  expr : α
  depth : Nat

/-- `TypeLayout`: the ordered flat sequence of depth-annotated items. -/
structure TypeLayout (α : Type) where
  items : List (TypeInfo α)

/-- The faults of `to_vesper`, one per panic/`expect` of the source. -/
inductive VesperError where
  | rootDebugAssert
  | depthDebugAssert
  | skippedLevel
  | rootUnset
  | inconsistency
  | tooManyItems
  | zeroItems
deriving Repr, DecidableEq

/-- Walk from a node through child indices (`head.content.get_mut(*el)`
chain). -/
def navGet {α : Type} : TypeVesper α → List Nat → Option (TypeVesper α)
  | t, [] => some t
  | .mk _ cs, i :: p =>
    match cs[i]? with
    | some c => navGet c p
    | none => none

/-- Rewrite the node a path points to (identity when the path dangles; the
reconstruction only uses it after `navGet` has succeeded). -/
def modifyAt {α : Type} : TypeVesper α → List Nat → (TypeVesper α → TypeVesper α) → TypeVesper α
  | t, [], f => f t
  | .mk e cs, i :: p, f =>
    match cs[i]? with
    | some c => .mk e (cs.set i (modifyAt c p f))
    | none => .mk e cs

/-- Append subtrees to a node's content. -/
def appendSub {α : Type} (ts : List (TypeVesper α)) (t : TypeVesper α) : TypeVesper α :=
  .mk t.expr (t.content ++ ts)

/-- One iteration of the `to_vesper` loop on state (root, path). -/
def vesperStep {α : Type} (s : Option (TypeVesper α) × List Nat) (item : TypeInfo α) :
    Except VesperError (Option (TypeVesper α) × List Nat) :=
  if s.2 = [] ∧ item.depth = 0 then
    match s.1 with
    | some _ => .error .rootDebugAssert
    | none => .ok (some (.mk item.expr []), s.2)
  else if item.depth = 0 then .error .depthDebugAssert
  else if s.2.length < item.depth - 1 then .error .skippedLevel
  else
    match s.1 with
    | none => .error .rootUnset
    | some r =>
      match navGet r (s.2.take (item.depth - 1)) with
      | none => .error .inconsistency
      | some head =>
        if VESPER_MAX < head.content.length + 1 then .error .tooManyItems
        else .ok (some (modifyAt r (s.2.take (item.depth - 1))
                    (appendSub [.mk item.expr []])),
                  s.2.take (item.depth - 1) ++ [head.content.length])

/-- `TypeLayout::to_vesper`: run the loop over the items from an empty state,
then demand a root. -/
def TypeLayout.to_vesper {α : Type} (layout : TypeLayout α) :
    Except VesperError (TypeVesper α) :=
  match layout.items.foldlM vesperStep ((none : Option (TypeVesper α)), ([] : List Nat)) with
  | .error e => .error e
  | .ok (some r, _) => .ok r
  | .ok (none, _) => .error .zeroItems

/-! ### Preorder flattening and reconstruction invariants -/

mutual

/-- Preorder flattening of a tree with explicit depths: the sequence a
`TypeTree` iteration produces and `to_vesper` consumes. -/
def flattenTree {α : Type} (t : TypeVesper α) (d : Nat) : List (TypeInfo α) :=
  match t with
  | .mk e cs => ⟨e, d⟩ :: flattenForest cs (d + 1)

/-- Preorder flattening of a forest of sibling subtrees. -/
def flattenForest {α : Type} (ts : List (TypeVesper α)) (d : Nat) : List (TypeInfo α) :=
  match ts with
  | [] => []
  | t :: ts => flattenTree t d ++ flattenForest ts d

end

mutual

/-- Every node of the tree has at most `VESPER_MAX` children. -/
def widthOk {α : Type} : TypeVesper α → Prop
  | .mk _ cs => cs.length ≤ VESPER_MAX ∧ widthOkForest cs

/-- `widthOk` on every tree of a forest. -/
def widthOkForest {α : Type} : List (TypeVesper α) → Prop
  | [] => True
  | t :: ts => widthOk t ∧ widthOkForest ts

end

/-- The path from a node to its last descendant in preorder: the index of the
last child, recursively. -/
def lastPath {α : Type} : TypeVesper α → List Nat
  | .mk _ cs =>
    match h : cs.getLast? with
    | none => []
    | some c => (cs.length - 1) :: lastPath c
decreasing_by
  obtain ⟨hne, rfl⟩ := List.mem_getLast?_eq_getLast (by rw [h]; rfl)
  have := List.sizeOf_lt_of_mem (List.getLast_mem hne)
  simp only [TypeVesper.mk.sizeOf_spec]
  omega

theorem navGet_append {α : Type} (p q : List Nat) (t : TypeVesper α) :
    navGet t (p ++ q) = (navGet t p).bind (fun s => navGet s q) := by
  induction p generalizing t with
  | nil => simp [navGet]
  | cons i p ih =>
    obtain ⟨e, cs⟩ := t
    simp only [List.cons_append, navGet]
    cases cs[i]? with
    | none => simp
    | some c => simp [ih]

theorem navGet_modifyAt_self {α : Type} (p : List Nat) (t h : TypeVesper α)
    (f : TypeVesper α → TypeVesper α) (hnav : navGet t p = some h) :
    navGet (modifyAt t p f) p = some (f h) := by
  induction p generalizing t with
  | nil =>
    simp only [navGet, Option.some.injEq] at hnav
    subst hnav
    simp [navGet, modifyAt]
  | cons i p ih =>
    obtain ⟨e, cs⟩ := t
    simp only [navGet] at hnav
    cases hc : cs[i]? with
    | none => rw [hc] at hnav; cases hnav
    | some c =>
      rw [hc] at hnav
      have hi : i < cs.length := by
        by_contra hge
        rw [List.getElem?_eq_none (by omega)] at hc
        cases hc
      simp only [modifyAt, hc, navGet,
        List.getElem?_set_eq_of_lt _ (by simpa using hi)]
      exact ih c hnav

theorem modifyAt_modifyAt {α : Type} (p : List Nat) (t : TypeVesper α)
    (f g : TypeVesper α → TypeVesper α) :
    modifyAt (modifyAt t p f) p g = modifyAt t p (fun x => g (f x)) := by
  induction p generalizing t with
  | nil => simp [modifyAt]
  | cons i p ih =>
    obtain ⟨e, cs⟩ := t
    cases hc : cs[i]? with
    | none => simp [modifyAt, hc]
    | some c =>
      have hi : i < cs.length := by
        by_contra hge
        rw [List.getElem?_eq_none (by omega)] at hc
        cases hc
      simp only [modifyAt, hc, List.getElem?_set_eq_of_lt _ (by simpa using hi),
        List.set_set]
      rw [ih]

theorem modifyAt_congr {α : Type} (p : List Nat) (t h : TypeVesper α)
    (f g : TypeVesper α → TypeVesper α) (hnav : navGet t p = some h)
    (hfg : f h = g h) :
    modifyAt t p f = modifyAt t p g := by
  induction p generalizing t with
  | nil =>
    simp only [navGet, Option.some.injEq] at hnav
    subst hnav
    simp [modifyAt, hfg]
  | cons i p ih =>
    obtain ⟨e, cs⟩ := t
    simp only [navGet] at hnav
    cases hc : cs[i]? with
    | none => simp [modifyAt, hc]
    | some c =>
      rw [hc] at hnav
      simp only [modifyAt, hc]
      rw [ih c hnav]

theorem modifyAt_append {α : Type} (p q : List Nat) (t : TypeVesper α)
    (f : TypeVesper α → TypeVesper α) :
    modifyAt t (p ++ q) f = modifyAt t p (fun s => modifyAt s q f) := by
  induction p generalizing t with
  | nil => simp [modifyAt]
  | cons i p ih =>
    obtain ⟨e, cs⟩ := t
    cases hc : cs[i]? with
    | none => simp [modifyAt, hc]
    | some c => simp [modifyAt, hc, ih]

theorem modifyAt_id {α : Type} (p : List Nat) (t : TypeVesper α)
    (f : TypeVesper α → TypeVesper α) (hf : ∀ x, f x = x) :
    modifyAt t p f = t := by
  induction p generalizing t with
  | nil => simp [modifyAt, hf]
  | cons i p ih =>
    obtain ⟨e, cs⟩ := t
    cases hc : cs[i]? with
    | none => simp [modifyAt, hc]
    | some c =>
      simp only [modifyAt, hc, ih]
      have hi : i < cs.length := by
        by_contra hge
        rw [List.getElem?_eq_none (by omega)] at hc
        cases hc
      have hset : cs.set i c = cs := by
        apply List.ext_getElem?
        intro j
        by_cases hj : j = i
        · subst hj
          rw [List.getElem?_set_eq_of_lt _ hi, hc]
        · rw [List.getElem?_set_ne (fun hh => hj hh.symm)]
      rw [hset]

mutual

/-- Node count of a tree (induction measure). -/
def sizeT {α : Type} : TypeVesper α → Nat
  | .mk _ cs => 1 + sizeF cs

/-- Node count of a forest. -/
def sizeF {α : Type} : List (TypeVesper α) → Nat
  | [] => 0
  | t :: ts => sizeT t + sizeF ts

end

theorem Except.ok_bind {ε σ τ : Type} (x : σ) (f : σ → Except ε τ) :
    (Except.ok x >>= f : Except ε τ) = f x := rfl

/-- The loop step on the first item of a subtree flattening: push a fresh
leaf as the next child of the node the truncated path points to. -/
theorem vesperStep_push {α : Type} (R head : TypeVesper α) (path extra : List Nat)
    (e : α) (hnav : navGet R path = some head)
    (hroom : head.content.length < VESPER_MAX) :
    vesperStep (some R, path ++ extra) ⟨e, path.length + 1⟩
      = .ok (some (modifyAt R path (appendSub [.mk e []])),
          path ++ [head.content.length]) := by
  unfold vesperStep
  rw [if_neg (by simp)]
  rw [if_neg (by simp)]
  rw [if_neg (by simp [List.length_append])]
  have h4 : (path ++ extra).take (path.length + 1 - 1) = path := by
    simpa using List.take_left path extra
  simp only [h4, hnav]
  rw [if_neg (by omega)]

theorem processForest_nil {α : Type} (R : TypeVesper α) (path extra : List Nat)
    (d : Nat) :
    List.foldlM vesperStep ((some R : Option (TypeVesper α)), path ++ extra)
        (flattenForest [] d)
      = .ok (some (modifyAt R path (appendSub [])), path ++ extra) := by
  simp only [flattenForest, List.foldlM_nil]
  rw [modifyAt_id]
  · rfl
  · intro x
    cases x
    simp [appendSub, TypeVesper.expr, TypeVesper.content]

/-- Running the loop over the preorder flattening of a forest of
width-bounded subtrees, from a state whose path (up to trailing indices left
by an earlier sibling) points at a node with room for them, appends the
forest to that node and leaves the path at the last node emitted. -/
theorem processForest {α : Type} :
    ∀ (fuel : Nat) (ts : List (TypeVesper α)) (R : TypeVesper α)
      (path extra : List Nat) (head : TypeVesper α),
      sizeF ts ≤ fuel →
      navGet R path = some head →
      widthOkForest ts →
      head.content.length + ts.length ≤ VESPER_MAX →
      List.foldlM vesperStep ((some R : Option (TypeVesper α)), path ++ extra)
          (flattenForest ts (path.length + 1))
        = .ok (some (modifyAt R path (appendSub ts)),
            match ts.getLast? with
            | none => path ++ extra
            | some tl => path ++ [head.content.length + ts.length - 1] ++ lastPath tl) := by
  intro fuel
  induction fuel with
  | zero =>
    intro ts R path extra head hsz hnav hw hroom
    cases ts with
    | nil => simpa using processForest_nil R path extra (path.length + 1)
    | cons t ts' =>
      exfalso
      cases t
      simp only [sizeF, sizeT] at hsz
      omega
  | succ n ih =>
    intro ts R path extra head hsz hnav hw hroom
    cases ts with
    | nil => simpa using processForest_nil R path extra (path.length + 1)
    | cons t ts' =>
      obtain ⟨e, cs⟩ := t
      simp only [sizeF, sizeT] at hsz
      have hszcs : sizeF cs ≤ n := by omega
      have hszts : sizeF ts' ≤ n := by omega
      simp only [widthOkForest, widthOk] at hw
      obtain ⟨⟨hwlen, hwcs⟩, hwts⟩ := hw
      have hroomt : head.content.length < VESPER_MAX := by
        simp only [List.length_cons] at hroom
        omega
      -- the flattening of the head subtree followed by the sibling forest
      have hflat : flattenForest (TypeVesper.mk e cs :: ts') (path.length + 1)
          = (⟨e, path.length + 1⟩ : TypeInfo α)
              :: (flattenForest cs (path.length + 1 + 1)
                  ++ flattenForest ts' (path.length + 1)) := by
        simp [flattenForest, flattenTree]
      rw [hflat, List.foldlM_cons,
        vesperStep_push R head path extra e hnav hroomt, Except.ok_bind,
        List.foldlM_append]
      -- step 2: the children forest under the fresh leaf
      have hnav1 : navGet R path = some head := hnav
      have hR1 : navGet (modifyAt R path (appendSub [.mk e []]))
          (path ++ [head.content.length]) = some (.mk e []) := by
        rw [navGet_append,
          navGet_modifyAt_self path R head _ hnav]
        simp [appendSub, navGet, TypeVesper.expr, TypeVesper.content]
      have hA := ih cs (modifyAt R path (appendSub [.mk e []]))
        (path ++ [head.content.length]) [] (.mk e []) hszcs hR1 hwcs
        (by simp [TypeVesper.content]; omega)
      rw [List.append_nil] at hA
      have hlen1 : (path ++ [head.content.length]).length + 1 = path.length + 1 + 1 := by
        simp
      rw [hlen1] at hA
      -- rewrite the children-forest result into canonical form
      have hR2 : modifyAt (modifyAt R path (appendSub [.mk e []]))
          (path ++ [head.content.length]) (appendSub cs)
          = modifyAt R path (appendSub [.mk e cs]) := by
        rw [modifyAt_append, modifyAt_modifyAt]
        apply modifyAt_congr path R head _ _ hnav
        have hcontent : (appendSub [TypeVesper.mk e []] head).content
            = head.content ++ [TypeVesper.mk e []] := by
          simp [appendSub, TypeVesper.content]
        cases head with
        | mk he hcs =>
          simp only [appendSub, TypeVesper.content, TypeVesper.expr, modifyAt]
          have hget : (hcs ++ [TypeVesper.mk e []])[hcs.length]?
              = some (TypeVesper.mk e []) := by simp
          simp only [hget]
          have hset : (hcs ++ [TypeVesper.mk e []]).set hcs.length
              (TypeVesper.mk e ([] ++ cs)) = hcs ++ [TypeVesper.mk e ([] ++ cs)] := by
            simp
          simp [hset]
      have hp2 : (match cs.getLast? with
          | none => path ++ [head.content.length]
          | some tl => (path ++ [head.content.length])
              ++ [(TypeVesper.mk e ([] : List (TypeVesper α))).content.length
                    + cs.length - 1] ++ lastPath tl)
          = path ++ [head.content.length] ++ lastPath (.mk e cs) := by
        rw [lastPath]
        cases hgl : cs.getLast? with
        | none => simp
        | some cl => simp [TypeVesper.content]
      rw [hR2] at hA
      rw [hA, Except.ok_bind, hp2]
      have hnav2 : navGet (modifyAt R path (appendSub [TypeVesper.mk e cs])) path
          = some (appendSub [TypeVesper.mk e cs] head) :=
        navGet_modifyAt_self path R head _ hnav
      have hroom2 : (appendSub [TypeVesper.mk e cs] head).content.length
          + ts'.length ≤ VESPER_MAX := by
        simp only [List.length_cons] at hroom
        simp only [appendSub, TypeVesper.content_mk, List.length_append,
          List.length_cons, List.length_nil]
        omega
      have hB := ih ts' (modifyAt R path (appendSub [TypeVesper.mk e cs])) path
        ([head.content.length] ++ lastPath (TypeVesper.mk e cs))
        (appendSub [TypeVesper.mk e cs] head) hszts hnav2 hwts hroom2
      rw [show path ++ [head.content.length] ++ lastPath (TypeVesper.mk e cs)
          = path ++ ([head.content.length] ++ lastPath (TypeVesper.mk e cs)) from
        List.append_assoc path [head.content.length] (lastPath (TypeVesper.mk e cs))]
      rw [hB]
      have ha : modifyAt (modifyAt R path (appendSub [TypeVesper.mk e cs])) path
          (appendSub ts')
          = modifyAt R path (appendSub (TypeVesper.mk e cs :: ts')) := by
        rw [modifyAt_modifyAt]
        congr 1
        funext x
        cases x
        simp [appendSub, TypeVesper.expr, TypeVesper.content]
      rw [ha]
      cases ts' with
      | nil =>
        simp [List.getLast?, appendSub, TypeVesper.content, List.append_assoc]
      | cons t2 rest =>
        rw [List.getLast?_cons_cons]
        have hidx : (appendSub [TypeVesper.mk e cs] head).content.length
            + (t2 :: rest).length - 1
            = head.content.length + (TypeVesper.mk e cs :: t2 :: rest).length - 1 := by
          simp only [appendSub, TypeVesper.content_mk, List.length_append,
            List.length_cons, List.length_nil]
          omega
        cases hgl : (t2 :: rest).getLast? with
        | none => simp at hgl
        | some tl =>
          simp only [appendSub, TypeVesper.content_mk, List.length_append,
            List.length_cons, List.length_nil] at hidx ⊢
          simp [hidx]

/-- C2: reconstructing from the preorder depth-annotated flattening of any
width-bounded tree returns that tree (each node emitted at depth `d` is
attached as a child of the most recently emitted node at depth `d - 1`). -/
theorem to_vesper_flatten_roundtrip {α : Type} (t : TypeVesper α)
    (hw : widthOk t) :
    TypeLayout.to_vesper ⟨flattenTree t 0⟩ = .ok t := by
  obtain ⟨e, cs⟩ := t
  simp only [widthOk] at hw
  obtain ⟨hlen, hwf⟩ := hw
  have hrun := processForest (sizeF cs) cs (.mk e []) [] [] (.mk e [])
    le_rfl rfl hwf (by simpa using hlen)
  simp only [List.nil_append, List.length_nil, Nat.zero_add, modifyAt,
    appendSub, TypeVesper.expr_mk, TypeVesper.content_mk] at hrun
  show (match List.foldlM vesperStep ((none : Option (TypeVesper α)), ([] : List Nat))
      (flattenTree (.mk e cs) 0) with
    | Except.error e => Except.error e
    | Except.ok (some r, _) => Except.ok r
    | Except.ok (none, _) => Except.error VesperError.zeroItems)
      = Except.ok (TypeVesper.mk e cs)
  have hflat : flattenTree (TypeVesper.mk e cs) 0
      = (⟨e, 0⟩ : TypeInfo α) :: flattenForest cs 1 := by
    simp [flattenTree]
  rw [hflat, List.foldlM_cons]
  have hstep : vesperStep ((none : Option (TypeVesper α)), ([] : List Nat)) ⟨e, 0⟩
      = .ok (some (.mk e []), []) := rfl
  rw [hstep, Except.ok_bind, hrun]

/-- Witness for C2 at a concrete three-node, two-level tree. -/
theorem to_vesper_flatten_roundtrip_witness :
    TypeLayout.to_vesper
        ⟨flattenTree (TypeVesper.mk (0 : Nat)
          [TypeVesper.mk 1 [TypeVesper.mk 2 []], TypeVesper.mk 3 []]) 0⟩
      = .ok (TypeVesper.mk (0 : Nat)
          [TypeVesper.mk 1 [TypeVesper.mk 2 []], TypeVesper.mk 3 []]) :=
  to_vesper_flatten_roundtrip _
    (by norm_num [widthOk, widthOkForest, VESPER_MAX])

theorem Except.error_bind {ε σ τ : Type} (e : ε) (f : σ → Except ε τ) :
    (Except.error e >>= f : Except ε τ) = Except.error e := rfl

/-- A monadic fold over `Except` fails with `e` exactly when some prefix
succeeds and the step on the next element fails with `e`. -/
theorem foldlM_except_error_iff {σ β ε : Type} (f : σ → β → Except ε σ)
    (l : List β) (s : σ) (e : ε) :
    List.foldlM f s l = .error e
      ↔ ∃ i s', List.foldlM f s (l.take i) = .ok s'
          ∧ ∃ a, l[i]? = some a ∧ f s' a = .error e := by
  induction l generalizing s with
  | nil => simp [List.foldlM_nil, pure, Except.pure]
  | cons a l ih =>
    rw [List.foldlM_cons]
    cases hfa : f s a with
    | error e1 =>
      rw [Except.error_bind]
      constructor
      · intro h
        have he : e1 = e := by cases h; rfl
        subst he
        exact ⟨0, s, by simp [List.foldlM_nil, pure, Except.pure], a, by simp, hfa⟩
      · rintro ⟨i, s', hpre, a', ha', hfa'⟩
        cases i with
        | zero =>
          simp only [List.take_zero, List.foldlM_nil] at hpre
          have hs : s = s' := by cases hpre; rfl
          subst hs
          simp only [List.getElem?_cons_zero, Option.some.injEq] at ha'
          subst ha'
          rw [hfa] at hfa'
          exact hfa'
        | succ j =>
          rw [List.take_succ_cons, List.foldlM_cons, hfa, Except.error_bind] at hpre
          cases hpre
    | ok s1 =>
      rw [Except.ok_bind, ih s1]
      constructor
      · rintro ⟨i, s', hpre, a', ha', hf'⟩
        refine ⟨i + 1, s', ?_, a', by simpa using ha', hf'⟩
        rw [List.take_succ_cons, List.foldlM_cons, hfa, Except.ok_bind]
        exact hpre
      · rintro ⟨i, s', hpre, a', ha', hf'⟩
        cases i with
        | zero =>
          simp only [List.take_zero, List.foldlM_nil] at hpre
          have hs : s = s' := by cases hpre; rfl
          subst hs
          simp only [List.getElem?_cons_zero, Option.some.injEq] at ha'
          subst ha'
          rw [hfa] at hf'
          cases hf'
        | succ j =>
          rw [List.take_succ_cons, List.foldlM_cons, hfa, Except.ok_bind] at hpre
          exact ⟨j, s', hpre, a', by simpa using ha', hf'⟩

/-- The loop step fails with the "skipped level" panic exactly when the item
claims depth at least 1 and the running path is shorter than `depth - 1`. -/
theorem vesperStep_skipped_iff {α : Type} (s : Option (TypeVesper α) × List Nat)
    (it : TypeInfo α) :
    vesperStep s it = .error .skippedLevel
      ↔ 1 ≤ it.depth ∧ s.2.length < it.depth - 1 := by
  unfold vesperStep
  by_cases h1 : s.2 = [] ∧ it.depth = 0
  · rw [if_pos h1]
    cases s.1 <;> simp [h1.2]
  · rw [if_neg h1]
    by_cases h2 : it.depth = 0
    · rw [if_pos h2]
      simp [h2]
    · rw [if_neg h2]
      by_cases h3 : s.2.length < it.depth - 1
      · rw [if_pos h3]
        simp only [true_iff]
        exact ⟨by omega, h3⟩
      · rw [if_neg h3]
        cases s.1 with
        | none => simp [h3]
        | some r =>
          cases hN : navGet r (s.2.take (it.depth - 1)) with
          | none => simp [hN, h3]
          | some head =>
            by_cases h4 : VESPER_MAX < head.content.length + 1
            · simp [hN, h4, h3]
            · simp [hN, h4, h3]

/-- No loop step fails with the "zero items" fault (it is raised only after
the loop, when no root was produced). -/
theorem vesperStep_ne_zeroItems {α : Type} (s : Option (TypeVesper α) × List Nat)
    (it : TypeInfo α) :
    vesperStep s it ≠ .error .zeroItems := by
  unfold vesperStep
  by_cases h1 : s.2 = [] ∧ it.depth = 0
  · rw [if_pos h1]
    cases s.1 <;> simp
  · rw [if_neg h1]
    by_cases h2 : it.depth = 0
    · rw [if_pos h2]; simp
    · rw [if_neg h2]
      by_cases h3 : s.2.length < it.depth - 1
      · rw [if_pos h3]; simp
      · rw [if_neg h3]
        cases s.1 with
        | none => simp
        | some r =>
          cases hN : navGet r (s.2.take (it.depth - 1)) with
          | none => simp [hN]
          | some head =>
            by_cases h4 : VESPER_MAX < head.content.length + 1
            · simp [hN, h4]
            · simp [hN, h4]

/-- Every successful loop step leaves a root in place. -/
theorem vesperStep_ok_root_some {α : Type} (s s' : Option (TypeVesper α) × List Nat)
    (it : TypeInfo α) (h : vesperStep s it = .ok s') : s'.1.isSome := by
  unfold vesperStep at h
  by_cases h1 : s.2 = [] ∧ it.depth = 0
  · rw [if_pos h1] at h
    cases hs : s.1 with
    | none =>
      rw [hs] at h
      cases h
      rfl
    | some r => rw [hs] at h; cases h
  · rw [if_neg h1] at h
    by_cases h2 : it.depth = 0
    · rw [if_pos h2] at h; cases h
    · rw [if_neg h2] at h
      by_cases h3 : s.2.length < it.depth - 1
      · rw [if_pos h3] at h; cases h
      · rw [if_neg h3] at h
        cases hs : s.1 with
        | none => simp [hs] at h
        | some r =>
          cases hN : navGet r (s.2.take (it.depth - 1)) with
          | none => simp [hs, hN] at h
          | some head =>
            by_cases h4 : VESPER_MAX < head.content.length + 1
            · simp [hs, hN, h4] at h
            · simp only [hs, hN, if_neg h4] at h
              cases h
              rfl

/-- A successful run over a nonempty item list has produced a root. -/
theorem foldlM_vesperStep_root_some {α : Type} :
    ∀ (l : List (TypeInfo α)) (s s' : Option (TypeVesper α) × List Nat),
      l ≠ [] → List.foldlM vesperStep s l = .ok s' → s'.1.isSome := by
  intro l
  induction l with
  | nil => intro s s' hne; exact absurd rfl hne
  | cons a rest ih =>
    intro s s' _ hrun
    rw [List.foldlM_cons] at hrun
    cases hfa : vesperStep s a with
    | error e => rw [hfa, Except.error_bind] at hrun; cases hrun
    | ok s1 =>
      rw [hfa, Except.ok_bind] at hrun
      cases rest with
      | nil =>
        simp only [List.foldlM_nil] at hrun
        have hs : s1 = s' := by cases hrun; rfl
        subst hs
        exact vesperStep_ok_root_some s s1 a hfa
      | cons b rest' => exact ih s1 s' (by simp) hrun

/-- `to_vesper` fails with `e` iff the loop does, for any fault other than
the post-loop "zero items" one. -/
theorem to_vesper_error_iff {α : Type} (items : List (TypeInfo α))
    (e : VesperError) (he : e ≠ .zeroItems) :
    TypeLayout.to_vesper ⟨items⟩ = .error e
      ↔ List.foldlM vesperStep ((none : Option (TypeVesper α)), ([] : List Nat))
          items = .error e := by
  show (match List.foldlM vesperStep ((none : Option (TypeVesper α)), ([] : List Nat))
      items with
    | Except.error e => Except.error e
    | Except.ok (some r, _) => Except.ok r
    | Except.ok (none, _) => Except.error VesperError.zeroItems)
      = Except.error e ↔ _
  cases hF : List.foldlM vesperStep ((none : Option (TypeVesper α)), ([] : List Nat)) items with
  | error e1 => simp
  | ok s =>
    obtain ⟨root, p⟩ := s
    cases root <;> simp
    intro h
    exact he h.symm

/-- The reconstruction reaches item `i` (the prefix before it processes
cleanly, ending in state `s`) and that item claims depth `d ≥ 1` while the
running path is shorter than `d - 1`. -/
def reachedSkip {α : Type} (items : List (TypeInfo α)) (i : Nat) : Prop :=
  ∃ s, List.foldlM vesperStep ((none : Option (TypeVesper α)), ([] : List Nat))
        (items.take i) = .ok s
    ∧ ∃ it, items[i]? = some it ∧ 1 ≤ it.depth ∧ s.2.length < it.depth - 1

/-- The C3 claim as stated: the "skipped level" failure happens exactly at
some *non-initial* (`1 ≤ i`) depth-jumping item, and the zero-items failure
exactly on empty input. -/
def vesperSkipClaim : Prop :=
  ∀ (items : List (TypeInfo Nat)),
    (TypeLayout.to_vesper ⟨items⟩ = .error .skippedLevel
      ↔ ∃ i, 1 ≤ i ∧ reachedSkip items i)
    ∧ (TypeLayout.to_vesper ⟨items⟩ = .error .zeroItems ↔ items = [])

/-- C3 counterexample: a single *initial* item at depth 2 already fails with
the "skipped level" panic (the path is empty, `0 < 2 - 1`), yet the claim as
stated only admits non-initial items as triggers. -/
theorem vesper_skipped_counterexample : ¬ vesperSkipClaim := by
  intro h
  have h1 := ((h [⟨0, 2⟩]).1).mp rfl
  obtain ⟨i, hi1, s, hpre, it, hit, _⟩ := h1
  rw [List.getElem?_eq_none (by simpa using hi1)] at hit
  cases hit

/-- C3 (amended): `to_vesper` fails with the "skipped level" panic exactly
when the run reaches an item at depth `d ≥ 1` while the current ancestor path
is shorter than `d - 1` — including the initial item when its depth is 2 or
more — and fails with the zero-items fault exactly on empty input. -/
theorem to_vesper_skipped_zero_iff {α : Type} (items : List (TypeInfo α)) :
    (TypeLayout.to_vesper ⟨items⟩ = .error .skippedLevel
      ↔ ∃ i, reachedSkip items i)
    ∧ (TypeLayout.to_vesper ⟨items⟩ = .error .zeroItems ↔ items = []) := by
  constructor
  · rw [to_vesper_error_iff items .skippedLevel (by simp)]
    rw [foldlM_except_error_iff]
    unfold reachedSkip
    constructor
    · rintro ⟨i, s', hpre, a, ha, hstep⟩
      exact ⟨i, s', hpre, a, ha, (vesperStep_skipped_iff s' a).mp hstep⟩
    · rintro ⟨i, s', hpre, a, ha, hcond⟩
      exact ⟨i, s', hpre, a, ha, (vesperStep_skipped_iff s' a).mpr hcond⟩
  · constructor
    · intro h
      by_contra hne
      revert h
      show TypeLayout.to_vesper ⟨items⟩ = .error .zeroItems → False
      show (match List.foldlM vesperStep
          ((none : Option (TypeVesper α)), ([] : List Nat)) items with
        | Except.error e => Except.error e
        | Except.ok (some r, _) => Except.ok r
        | Except.ok (none, _) => Except.error VesperError.zeroItems)
          = Except.error VesperError.zeroItems → False
      cases hF : List.foldlM vesperStep
          ((none : Option (TypeVesper α)), ([] : List Nat)) items with
      | error e1 =>
        intro hz
        have he : e1 = .zeroItems := by cases hz; rfl
        subst he
        obtain ⟨i, s', hpre, a, ha, hstep⟩ :=
          (foldlM_except_error_iff vesperStep items (none, []) .zeroItems).mp hF
        exact vesperStep_ne_zeroItems s' a hstep
      | ok s =>
        obtain ⟨root, p⟩ := s
        cases root with
        | some r => intro hz; cases hz
        | none =>
          intro _
          have := foldlM_vesperStep_root_some items (none, []) (none, p) hne hF
          simp at this
    · intro h
      subst h
      rfl

/-- C8: once a root has been established, any later item claiming depth 0
again makes `to_vesper` fault with one of the two `debug_assert`
inconsistencies (root-already-set when the path is empty, zero-depth
otherwise). -/
theorem to_vesper_depth0_faults {α : Type} (items : List (TypeInfo α))
    (i : Nat) (r : TypeVesper α) (p : List Nat) (it : TypeInfo α)
    (hpre : List.foldlM vesperStep ((none : Option (TypeVesper α)), ([] : List Nat))
        (items.take i) = .ok (some r, p))
    (hit : items[i]? = some it) (hd : it.depth = 0) :
    TypeLayout.to_vesper ⟨items⟩ = .error .rootDebugAssert
      ∨ TypeLayout.to_vesper ⟨items⟩ = .error .depthDebugAssert := by
  by_cases hp : p = []
  · left
    rw [to_vesper_error_iff items .rootDebugAssert (by simp)]
    refine (foldlM_except_error_iff vesperStep items (none, []) _).mpr
      ⟨i, (some r, p), hpre, it, hit, ?_⟩
    unfold vesperStep
    rw [if_pos ⟨hp, hd⟩]
  · right
    rw [to_vesper_error_iff items .depthDebugAssert (by simp)]
    refine (foldlM_except_error_iff vesperStep items (none, []) _).mpr
      ⟨i, (some r, p), hpre, it, hit, ?_⟩
    unfold vesperStep
    rw [if_neg (by simp [hp]), if_pos hd]

/-- Witness for C8: the second of two depth-0 items trips the
root-already-set assertion. -/
theorem to_vesper_depth0_faults_witness :
    TypeLayout.to_vesper ⟨[(⟨0, 0⟩ : TypeInfo Nat), ⟨1, 0⟩]⟩
        = .error .rootDebugAssert
      ∨ TypeLayout.to_vesper ⟨[(⟨0, 0⟩ : TypeInfo Nat), ⟨1, 0⟩]⟩
        = .error .depthDebugAssert :=
  to_vesper_depth0_faults [⟨0, 0⟩, ⟨1, 0⟩] 1 (.mk 0 []) [] ⟨1, 0⟩ rfl rfl rfl

/-! ### Textual identity encoding (`FromStr`/`Display` for `TypeSysId`)

`Display` writes `urn:ubideco:` followed by the `baid58` rendering (HRI
`sts`, base-58 payload, `#`-separated mnemonic checksum); `FromStr` trims
every leading `urn:ubideco:` (`trim_start_matches`) and delegates to
`from_baid58_str`.  The `baid58` crate is an external dependency: its codec
is modelled from the spec ("ids render as `urn:<namespace>:<base-encoded-
payload>[#<mnemonic>]`; parsing must strip a recognized prefix, validate
embedded checksum, and reject malformed or truncated strings"), with the
base-58 alphabet of the real crate, and the human-pronounceable mnemonic
modelled as a decimal rendering of a 32-bit checksum of the payload.
Strings are byte lists. -/

/-- The 58-character base-58 alphabet (ASCII codes of
`123456789ABCDEFGHJKLMNPQRSTUVWXYZabcdefghijkmnopqrstuvwxyz`). -/
def B58ALPHABET : List Nat :=
  [49, 50, 51, 52, 53, 54, 55, 56, 57,
   65, 66, 67, 68, 69, 70, 71, 72, 74, 75, 76, 77, 78, 80, 81, 82, 83, 84,
   85, 86, 87, 88, 89, 90,
   97, 98, 99, 100, 101, 102, 103, 104, 105, 106, 107, 109, 110, 111, 112,
   113, 114, 115, 116, 117, 118, 119, 120, 121, 122]

/-- Digit value to alphabet character. -/
def b58Digit (d : Nat) : Nat := B58ALPHABET.getD d 0

/-- Alphabet character back to digit value. -/
def b58Val (c : Nat) : Option Nat := B58ALPHABET.indexOf? c

/-- Base-58 rendering of a payload value, most significant digit first. -/
def toB58 (n : Nat) : List Nat :=
  if n < 58 then [b58Digit n] else toB58 (n / 58) ++ [b58Digit (n % 58)]
decreasing_by
  exact Nat.div_lt_self (by omega) (by omega)

/-- `Baid58ParseError`: the parse failures of the textual id codec. -/
inductive Baid58ParseErr where
  | invalidChar (c : Nat)
  | valueOverflow
  | emptyPayload
  | checksumMismatch
deriving Repr, DecidableEq

/-- Base-58 parsing, failing on the first character outside the alphabet. -/
def fromB58E : List Nat → Nat → Except Baid58ParseErr Nat
  | [], acc => .ok acc
  | c :: cs, acc =>
    match b58Val c with
    | some d => fromB58E cs (acc * 58 + d)
    | none => .error (.invalidChar c)

/-- Decimal digit rendering (mnemonic model). -/
def decDigit (d : Nat) : Nat := d + 48

/-- Decimal rendering of the checksum, most significant digit first. -/
def toDec (n : Nat) : List Nat :=
  if n < 10 then [decDigit n] else toDec (n / 10) ++ [decDigit (n % 10)]
decreasing_by
  exact Nat.div_lt_self (by omega) (by omega)

/-- Decimal parsing of the mnemonic. -/
def fromDecE : List Nat → Nat → Except Baid58ParseErr Nat
  | [], acc => .ok acc
  | c :: cs, acc =>
    if 48 ≤ c ∧ c ≤ 57 then fromDecE cs (acc * 10 + (c - 48))
    else .error (.invalidChar c)

/-- The `urn:ubideco:` prefix bytes. -/
def URN_PRE : List Nat := [117, 114, 110, 58, 117, 98, 105, 100, 101, 99, 111, 58]

/-- The `sts:` human-readable identifier of `TypeSysId` (`ToBaid58::HRI`). -/
def HRI_STS : List Nat := [115, 116, 115, 58]

/-- `str::trim_start_matches("urn:ubideco:")`: repeatedly strip the
namespace marker. -/
def trimUrn (s : List Nat) : List Nat :=
  if s.take URN_PRE.length = URN_PRE then trimUrn (s.drop URN_PRE.length) else s
termination_by s.length
decreasing_by
  rename_i h
  have hlen : (s.take URN_PRE.length).length = URN_PRE.length := by rw [h]
  rw [List.length_take] at hlen
  have h12 : URN_PRE.length = 12 := rfl
  rw [List.length_drop]
  rw [h12] at hlen ⊢
  omega

/-- Split the baid58 body at the `#` mnemonic separator (byte 35). -/
def splitHash : List Nat → List Nat × Option (List Nat)
  | [] => ([], none)
  | c :: cs =>
    if c = 35 then ([], some cs)
    else
      let r := splitHash cs
      (c :: r.1, r.2)

/-- Decode the base-58 payload: nonempty, alphabet-only, 32 bytes at most. -/
def decodeB58Payload (cs : List Nat) : Except Baid58ParseErr Nat :=
  if cs = [] then .error .emptyPayload
  else do
    let v ← fromB58E cs 0
    if v < 2 ^ 256 then .ok v else .error .valueOverflow

/-- The 32-bit checksum the mnemonic encodes.  Modelled from the spec: the
ids are rendered with "a checksum-bearing base encoding plus an optional
human-pronounceable mnemonic"; the mnemonic bytes here are the decimal
rendering of the checksum. -/
def baidChecksum (v : Nat) : Nat := v % 4294967296

/-- `Display for TypeSysId` (default flags): `urn:ubideco:` + HRI +
base-58 payload + `#` + mnemonic. -/
def typeSysIdDisplay (id : Nat) : List Nat :=
  URN_PRE ++ HRI_STS ++ toB58 id ++ 35 :: toDec (baidChecksum id)

/-- The baid58 body: what remains after trimming every leading
`urn:ubideco:` and stripping a recognized HRI marker. -/
def baidBody (s : List Nat) : List Nat :=
  if (trimUrn s).take HRI_STS.length = HRI_STS
  then (trimUrn s).drop HRI_STS.length
  else trimUrn s

/-- Parse the baid58 body: base-58 payload, then the optional `#`-separated
mnemonic whose embedded checksum must match the payload. -/
def parseBody (b : List Nat) : Except Baid58ParseErr Nat :=
  match (splitHash b).2 with
  | none => decodeB58Payload (splitHash b).1
  | some m => do
    let v ← decodeB58Payload (splitHash b).1
    let c ← fromDecE m 0
    if c = baidChecksum v then .ok v else .error .checksumMismatch

/-- `FromStr for TypeSysId`: trim every leading `urn:ubideco:`
(`trim_start_matches`), then `from_baid58_str`. -/
def typeSysIdFromStr (s : List Nat) : Except Baid58ParseErr Nat :=
  parseBody (baidBody s)

theorem b58Val_digit : ∀ d, d < 58 → b58Val (b58Digit d) = some d := by decide

theorem b58Digit_mem : ∀ d, d < 58 → b58Digit d ∈ B58ALPHABET := by decide

theorem toB58_ne_nil (n : Nat) : toB58 n ≠ [] := by
  rw [toB58]
  by_cases h : n < 58
  · rw [if_pos h]; simp
  · rw [if_neg h]; simp

theorem toB58_mem (n : Nat) : ∀ c ∈ toB58 n, c ∈ B58ALPHABET := by
  induction n using Nat.strong_induction_on with
  | _ n ih =>
    rw [toB58]
    by_cases h : n < 58
    · rw [if_pos h]
      intro c hc
      simp only [List.mem_singleton] at hc
      subst hc
      exact b58Digit_mem n h
    · rw [if_neg h]
      intro c hc
      rcases List.mem_append.mp hc with hc | hc
      · exact ih (n / 58) (Nat.div_lt_self (by omega) (by omega)) c hc
      · simp only [List.mem_singleton] at hc
        subst hc
        exact b58Digit_mem (n % 58) (Nat.mod_lt _ (by omega))

theorem toB58_not35 (n : Nat) : ¬ (35 : Nat) ∈ toB58 n := by
  intro h
  have := toB58_mem n 35 h
  revert this
  decide

theorem fromB58E_append (xs ys : List Nat) :
    ∀ acc, fromB58E (xs ++ ys) acc
      = match fromB58E xs acc with
        | .ok a => fromB58E ys a
        | .error e => .error e := by
  induction xs with
  | nil => intro acc; simp [fromB58E]
  | cons c cs ih =>
    intro acc
    simp only [List.cons_append, fromB58E]
    cases b58Val c with
    | none => simp
    | some d => simp [ih]

theorem fromB58E_toB58 (n : Nat) :
    ∀ acc, fromB58E (toB58 n) acc = .ok (acc * 58 ^ (toB58 n).length + n) := by
  induction n using Nat.strong_induction_on with
  | _ n ih =>
    intro acc
    rw [toB58]
    by_cases h : n < 58
    · rw [if_pos h]
      simp only [fromB58E, b58Val_digit n h, List.length_singleton, pow_one]
    · rw [if_neg h]
      rw [fromB58E_append]
      rw [ih (n / 58) (Nat.div_lt_self (by omega) (by omega)) acc]
      simp only [fromB58E, b58Val_digit (n % 58) (Nat.mod_lt _ (by omega)),
        List.length_append, List.length_singleton, pow_succ]
      congr 1
      calc (acc * 58 ^ (toB58 (n / 58)).length + n / 58) * 58 + n % 58
          = acc * (58 ^ (toB58 (n / 58)).length * 58) + (58 * (n / 58) + n % 58) := by
            ring
        _ = acc * (58 ^ (toB58 (n / 58)).length * 58) + n := by
            rw [Nat.div_add_mod]

theorem toDec_ne_nil (n : Nat) : toDec n ≠ [] := by
  rw [toDec]
  by_cases h : n < 10
  · rw [if_pos h]; simp
  · rw [if_neg h]; simp

theorem fromDecE_append (xs ys : List Nat) :
    ∀ acc, fromDecE (xs ++ ys) acc
      = match fromDecE xs acc with
        | .ok a => fromDecE ys a
        | .error e => .error e := by
  induction xs with
  | nil => intro acc; simp [fromDecE]
  | cons c cs ih =>
    intro acc
    simp only [List.cons_append, fromDecE]
    by_cases hc : 48 ≤ c ∧ c ≤ 57
    · simp [hc, ih]
    · simp [hc]

theorem fromDecE_toDec (n : Nat) :
    ∀ acc, fromDecE (toDec n) acc = .ok (acc * 10 ^ (toDec n).length + n) := by
  induction n using Nat.strong_induction_on with
  | _ n ih =>
    intro acc
    rw [toDec]
    by_cases h : n < 10
    · rw [if_pos h]
      have hrange : 48 ≤ decDigit n ∧ decDigit n ≤ 57 := by
        simp only [decDigit]; omega
      simp only [fromDecE, if_pos hrange, List.length_singleton, pow_one]
      have hval : decDigit n - 48 = n := by simp only [decDigit]; omega
      rw [hval]
    · rw [if_neg h]
      rw [fromDecE_append]
      rw [ih (n / 10) (Nat.div_lt_self (by omega) (by omega)) acc]
      have hrange : 48 ≤ decDigit (n % 10) ∧ decDigit (n % 10) ≤ 57 := by
        simp only [decDigit]; omega
      simp only [fromDecE, if_pos hrange, List.length_append,
        List.length_singleton, pow_succ]
      have hval : decDigit (n % 10) - 48 = n % 10 := by simp only [decDigit]; omega
      rw [hval]
      congr 1
      calc (acc * 10 ^ (toDec (n / 10)).length + n / 10) * 10 + n % 10
          = acc * (10 ^ (toDec (n / 10)).length * 10) + (10 * (n / 10) + n % 10) := by
            ring
        _ = acc * (10 ^ (toDec (n / 10)).length * 10) + n := by
            rw [Nat.div_add_mod]

theorem splitHash_append (xs ys : List Nat) (h : ¬ (35 : Nat) ∈ xs) :
    splitHash (xs ++ 35 :: ys) = (xs, some ys) := by
  induction xs with
  | nil => simp [splitHash]
  | cons c cs ih =>
    have hc : ¬ c = 35 := fun hc => h (by simp [hc])
    have hcs : ¬ (35 : Nat) ∈ cs := fun hm => h (by simp [hm])
    simp [List.cons_append, splitHash, hc, List.append_eq, ih hcs]

theorem trimUrn_append (rest : List Nat) :
    trimUrn (URN_PRE ++ rest) = trimUrn rest := by
  rw [trimUrn, if_pos (List.take_left URN_PRE rest), List.drop_left]

theorem trimUrn_of_ne (s : List Nat) (h : ¬ s.take URN_PRE.length = URN_PRE) :
    trimUrn s = s := by
  rw [trimUrn, if_neg h]

theorem baidBody_display (id : Nat) (m : List Nat) :
    baidBody (URN_PRE ++ HRI_STS ++ toB58 id ++ 35 :: m)
      = toB58 id ++ 35 :: m := by
  have hassoc : URN_PRE ++ HRI_STS ++ toB58 id ++ 35 :: m
      = URN_PRE ++ (HRI_STS ++ (toB58 id ++ 35 :: m)) := by
    simp [List.append_assoc]
  have htrim : trimUrn (URN_PRE ++ HRI_STS ++ toB58 id ++ 35 :: m)
      = HRI_STS ++ (toB58 id ++ 35 :: m) := by
    rw [hassoc, trimUrn_append]
    apply trimUrn_of_ne
    intro hEq
    rw [List.take_append_eq_append_take,
      List.take_of_length_le (by simp [HRI_STS, URN_PRE])] at hEq
    simp [HRI_STS, URN_PRE] at hEq
  unfold baidBody
  rw [htrim, if_pos (List.take_left HRI_STS (toB58 id ++ 35 :: m)),
    List.drop_left]

theorem parseBody_display (id : Nat) (m : List Nat) (hid : id < 2 ^ 256) :
    parseBody (toB58 id ++ 35 :: m)
      = match fromDecE m 0 with
        | .ok c => if c = baidChecksum id then .ok id else .error .checksumMismatch
        | .error e => .error e := by
  unfold parseBody
  rw [splitHash_append _ _ (toB58_not35 id)]
  have hdec : decodeB58Payload (toB58 id) = .ok id := by
    unfold decodeB58Payload
    rw [if_neg (toB58_ne_nil id), fromB58E_toB58 id 0]
    rw [show (0 * 58 ^ (toB58 id).length + id) = id by simp]
    rw [Except.ok_bind, if_pos hid]
  simp only []
  rw [hdec, Except.ok_bind]
  cases hm : fromDecE m 0 with
  | ok c => rw [Except.ok_bind]
  | error e => rw [Except.error_bind]

/-- Any value a successful payload decode returns came from a nonempty,
alphabet-only base-58 body and respects the 32-byte bound. -/
theorem decodeB58Payload_sound (pl : List Nat) (v : Nat)
    (h : decodeB58Payload pl = .ok v) :
    pl ≠ [] ∧ fromB58E pl 0 = .ok v ∧ v < 2 ^ 256 := by
  unfold decodeB58Payload at h
  by_cases hnil : pl = []
  · rw [if_pos hnil] at h
    cases h
  · rw [if_neg hnil] at h
    cases hf : fromB58E pl 0 with
    | error e => rw [hf, Except.error_bind] at h; cases h
    | ok v0 =>
      rw [hf, Except.ok_bind] at h
      by_cases hlt : v0 < 2 ^ 256
      · rw [if_pos hlt] at h
        have hv : v0 = v := by cases h; rfl
        subst hv
        exact ⟨hnil, rfl, hlt⟩
      · rw [if_neg hlt] at h
        cases h

/-- Parser soundness: `FromStr` returns an id only for a string whose baid58
body carries a nonempty in-bounds base-58 payload decoding to that id, and
whose mnemonic, when present, encodes exactly the payload's checksum.  Every
other string — malformed, truncated, or checksum-mismatched — gets a parse
error (the parser is total into `Except`). -/
theorem typeSysIdFromStr_sound (s : List Nat) (v : Nat)
    (h : typeSysIdFromStr s = .ok v) :
    v < 2 ^ 256
      ∧ (splitHash (baidBody s)).1 ≠ []
      ∧ fromB58E (splitHash (baidBody s)).1 0 = .ok v
      ∧ ∀ m, (splitHash (baidBody s)).2 = some m →
          fromDecE m 0 = .ok (baidChecksum v) := by
  unfold typeSysIdFromStr parseBody at h
  cases hm : (splitHash (baidBody s)).2 with
  | none =>
    simp only [hm] at h
    obtain ⟨hnil, hf, hlt⟩ := decodeB58Payload_sound _ _ h
    refine ⟨hlt, hnil, hf, ?_⟩
    intro m hmm
    cases hmm
  | some m =>
    simp only [hm] at h
    cases hd : decodeB58Payload (splitHash (baidBody s)).1 with
    | error e => rw [hd, Except.error_bind] at h; cases h
    | ok v0 =>
      rw [hd, Except.ok_bind] at h
      cases hc : fromDecE m 0 with
      | error e => rw [hc, Except.error_bind] at h; cases h
      | ok c =>
        rw [hc, Except.ok_bind] at h
        by_cases hck : c = baidChecksum v0
        · rw [if_pos hck] at h
          have hv : v0 = v := by cases h; rfl
          subst hv
          obtain ⟨hnil, hf, hlt⟩ := decodeB58Payload_sound _ _ hd
          refine ⟨hlt, hnil, hf, ?_⟩
          intro m2 hm2
          have hmeq : m = m2 := by cases hm2; rfl
          subst hmeq
          rw [hc, hck]
        · rw [if_neg hck] at h
          cases h

/-- C7: parsing the default `Display` rendering of a `TypeSysId` (the
`urn:ubideco:`-prefixed, HRI-marked, base-58, mnemonic-suffixed form)
returns the same id; *every* rendering whose embedded mnemonic decodes to a
checksum other than the payload's is rejected with the checksum error, and
one whose mnemonic is malformed propagates that parse error; the empty
string is rejected; and in general a parse can return an id only for a
well-formed string whose payload decodes to that id with a matching
checksum, so every malformed, truncated, or checksum-mismatched string
returns a parse error rather than an id. -/
theorem typesysid_textual_roundtrip (id : Nat) (hid : id < 2 ^ 256) :
    typeSysIdFromStr (typeSysIdDisplay id) = .ok id
      ∧ (∀ m c, fromDecE m 0 = .ok c → c ≠ baidChecksum id →
          typeSysIdFromStr (URN_PRE ++ HRI_STS ++ toB58 id ++ 35 :: m)
            = .error .checksumMismatch)
      ∧ (∀ m e, fromDecE m 0 = .error e →
          typeSysIdFromStr (URN_PRE ++ HRI_STS ++ toB58 id ++ 35 :: m)
            = .error e)
      ∧ typeSysIdFromStr [] = .error .emptyPayload
      ∧ (∀ s v, typeSysIdFromStr s = .ok v →
          v < 2 ^ 256
            ∧ (splitHash (baidBody s)).1 ≠ []
            ∧ fromB58E (splitHash (baidBody s)).1 0 = .ok v
            ∧ ∀ m, (splitHash (baidBody s)).2 = some m →
                fromDecE m 0 = .ok (baidChecksum v)) := by
  refine ⟨?_, ?_, ?_, ?_, fun s v h => typeSysIdFromStr_sound s v h⟩
  · unfold typeSysIdFromStr typeSysIdDisplay
    rw [baidBody_display, parseBody_display id _ hid,
      fromDecE_toDec (baidChecksum id) 0]
    simp
  · intro m c hc hne
    unfold typeSysIdFromStr
    rw [baidBody_display, parseBody_display id _ hid, hc]
    simp [hne]
  · intro m e he
    unfold typeSysIdFromStr
    rw [baidBody_display, parseBody_display id _ hid, he]
  · unfold typeSysIdFromStr baidBody
    have h0 : trimUrn [] = [] := by
      rw [trimUrn]
      rw [if_neg (by simp [URN_PRE])]
    rw [h0]
    rw [if_neg (by simp [HRI_STS])]
    rfl

/-- Witness for C7 at the concrete id 5. -/
theorem typesysid_textual_roundtrip_witness :
    typeSysIdFromStr (typeSysIdDisplay 5) = .ok 5
      ∧ (∀ m c, fromDecE m 0 = .ok c → c ≠ baidChecksum 5 →
          typeSysIdFromStr (URN_PRE ++ HRI_STS ++ toB58 5 ++ 35 :: m)
            = .error .checksumMismatch)
      ∧ (∀ m e, fromDecE m 0 = .error e →
          typeSysIdFromStr (URN_PRE ++ HRI_STS ++ toB58 5 ++ 35 :: m)
            = .error e)
      ∧ typeSysIdFromStr [] = .error .emptyPayload
      ∧ (∀ s v, typeSysIdFromStr s = .ok v →
          v < 2 ^ 256
            ∧ (splitHash (baidBody s)).1 ≠ []
            ∧ fromB58E (splitHash (baidBody s)).1 0 = .ok v
            ∧ ∀ m, (splitHash (baidBody s)).2 = some m →
                fromDecE m 0 = .ok (baidChecksum v)) :=
  typesysid_textual_roundtrip 5 (by norm_num)
